import Mathlib

/-!
# Verification of the PAK/HQR asset extractor (`pakdump.py`)

Shallow embedding of the decode pipeline of `pakdump.py`:

* `uncompress` — the LZSS-variant decompressor over a 4096-byte ring buffer
  (source lines 196-244).  Machine bytes are `Nat`s; fallible indexing into
  the payload (Python `IndexError`) is modelled by an `Option` result, with
  `none` meaning the Python code raises.  The loop is driven by fuel
  `data.length + 1`, which is proved sufficient (`uLoop_fuel_irrelevant`).
* `morton` / `part1by1` — the bit-interleaving function (lines 92-101).
* `unpack1555`, `unpack4444`, `unpack565` — pixel unpackers (lines 104-122).
  Python computes `int (255*v/31.0)` etc.; since `255*v ≤ 255*63` is exactly
  representable and the exact quotient is never within double-rounding
  distance of an integer (fractional parts are multiples of `1/31`, `1/15`,
  `1/63`), `int` of the float quotient equals truncating natural division,
  which is how the scaling is embedded.
* `vq_decode`, `morton_decode` — the two texture decoders (lines 126-171),
  with `struct.error`/`IndexError` modelled as `none`.
* `pvrDecode` — the texture dispatcher `pvr_decode` (lines 11-194), with the
  diagnostic `TYPES[px]`/`FMTS[fmt]` list lookups of the info print modelled
  (they raise `IndexError` for out-of-range values) and the `verify` calls
  on the dimensions modelled as a distinguished failure.
* `processEntry` / `processBatch` — the per-entry part of the archive driver
  `main` (lines 294-330) and the loop over entries; an exception escaping
  the loop body aborts the batch.
-/

/-! ## Byte-level helpers -/

/-- Python tail slice `l[start:]` where `start : Int` may be negative
(negative indices count from the end, clamped at 0). -/
def pyTail (l : List Nat) (start : Int) : List Nat :=
  if 0 ≤ start then l.drop start.toNat
  else l.drop (((l.length : Int) + start).toNat)

/-- `struct.unpack ('<H', ...)`: the `k`-th little-endian 16-bit sample of a
byte list. -/
def readLE16 (l : List Nat) (k : Nat) : Nat :=
  l.getD (2 * k) 0 + 256 * l.getD (2 * k + 1) 0

/-- `struct.unpack ('<I', ...)`: little-endian 32-bit value at byte offset `k`. -/
def readLE32 (l : List Nat) (k : Nat) : Nat :=
  l.getD k 0 + 256 * l.getD (k + 1) 0 + 65536 * l.getD (k + 2) 0 +
    16777216 * l.getD (k + 3) 0

/-! ## The Morton interleave (`morton`, source lines 92-101) -/

/-- The masked-shift pipeline applied to one coordinate: spreads the low 16
bits of `x` to the even bit positions.  `morton` applies it to both
coordinates (the source interleaves the two pipelines textually, but they are
independent). -/
def part1by1 (x : Nat) : Nat :=
  let x1 := (x ||| (x <<< 8)) &&& 0x00ff00ff
  let x2 := (x1 ||| (x1 <<< 4)) &&& 0x0f0f0f0f
  let x3 := (x2 ||| (x2 <<< 2)) &&& 0x33333333
  let x4 := (x3 ||| (x3 <<< 1)) &&& 0x55555555
  x4

/-- `morton (x, y)` of the source: interleave `x` into even bits, `y` into odd
bits. -/
def morton (x y : Nat) : Nat :=
  part1by1 x ||| (part1by1 y <<< 1)

/-! ## Pixel unpackers (source lines 104-122) -/

/-- `unpack1555`: returns `[r, g, b, a]`.  Note the source scales the alpha
bit by `255` without dividing (`int (255*((colour>>15)&31))`). -/
def unpack1555 (colour : Nat) : List Nat :=
  [255 * ((colour >>> 10) &&& 31) / 31,
   255 * ((colour >>> 5) &&& 31) / 31,
   255 * (colour &&& 31) / 31,
   255 * ((colour >>> 15) &&& 31)]

/-- `unpack4444`: returns `[r, g, b, a]`. -/
def unpack4444 (colour : Nat) : List Nat :=
  [255 * ((colour >>> 8) &&& 15) / 15,
   255 * ((colour >>> 4) &&& 15) / 15,
   255 * (colour &&& 15) / 15,
   255 * ((colour >>> 12) &&& 15) / 15]

/-- `unpack565`: returns `[r, g, b]`. -/
def unpack565 (colour : Nat) : List Nat :=
  [255 * ((colour >>> 11) &&& 31) / 31,
   255 * ((colour >>> 5) &&& 63) / 63,
   255 * (colour &&& 31) / 31]

/-! ## VQ texture decoder (`vq_decode`, source lines 126-155) -/

/-- Codebook sample `k` of a VQ texture: the payload after the 16-byte PVR
header is read as 1024 little-endian 16-bit samples (`unpack ('<1024H',
tmp[:CODEBOOK_SIZE])`).  Modelled as a total lookup: the decoder only reads
entries `4*v .. 4*v+3` for an index-table byte `v ≤ 255`, i.e. at most
sample 1023, inside the 2048 bytes whose presence `vq_decode` checks. -/
def vqBook (raw : List Nat) (k : Nat) : Nat :=
  readLE16 (raw.drop 16) k

/-- The VQ index lookup table: the trailing `width*height//4` bytes of the
payload (`raw[size - base : size]`, with Python slice semantics when the
payload is shorter than `base`). -/
def vqLut (raw : List Nat) (w h : Nat) : List Nat :=
  pyTail raw ((raw.length : Int) - (w * h / 4 : Nat))

/-- One 2×2 VQ block at grid position `(i, j)`: looks up the codebook entry
`4 * lut[morton (i, j)]` and returns the two half-rows the source appends to
`row0` and `row1` (`entry+0`/`entry+2` on top, `entry+1`/`entry+3` below).
`none` models the `IndexError` when `morton (i, j)` is outside `lut`. -/
def vqBlock (book : Nat → Nat) (dec : Nat → List Nat) (lut : List Nat)
    (i j : Nat) : Option (List Nat × List Nat) :=
  (lut.get? (morton i j)).map fun v =>
    (dec (book (4 * v)) ++ dec (book (4 * v + 2)),
     dec (book (4 * v + 1)) ++ dec (book (4 * v + 3)))

/-- The inner `for j in range (width//2)` loop: builds `row0` and `row1` by
appending each block's half-rows in order. -/
def vqRow (f : Nat → Option (List Nat × List Nat)) :
    List Nat → Option (List Nat × List Nat)
  | [] => some ([], [])
  | j :: js => do
    let b ← f j
    let rest ← vqRow f js
    pure (b.1 ++ rest.1, b.2 ++ rest.2)

/-- The outer `for i in range (height//2)` loop: appends `row0` then `row1`
for each `i`. -/
def vqPix (g : Nat → Option (List Nat × List Nat)) :
    List Nat → Option (List (List Nat))
  | [] => some []
  | i :: is => do
    let p ← g i
    let rest ← vqPix g is
    pure (p.1 :: p.2 :: rest)

/-- `vq_decode (raw, decoder)` for a `width × height` texture.  `none` models
a raised exception (`struct.error` on a short codebook, or `IndexError` on
the index table). -/
def vq_decode (raw : List Nat) (w h : Nat) (dec : Nat → List Nat) :
    Option (List (List Nat)) :=
  if raw.length < 16 + 2048 then none
  else
    vqPix
      (fun i => vqRow (vqBlock (vqBook raw) dec (vqLut raw w h) i) (List.range (w / 2)))
      (List.range (h / 2))

/-! ## Twiddled texture decoder (`morton_decode`, source lines 157-171) -/

/-- Sample lookup for the twiddled decoder: sample `k` of the largest mipmap
(the last `width*height*2` bytes), `none` when `k` is outside the
`width*height` samples (Python tuple `IndexError`). -/
def mdSample (mip : List Nat) (n k : Nat) : Option Nat :=
  if k < n then some (readLE16 mip k) else none

/-- The inner `for j in range (width)` loop of `morton_decode`: each output
pixel is the decoded sample at index `morton (i, j)`. -/
def mdRow (sample : Nat → Option Nat) (dec : Nat → List Nat) (i : Nat) :
    List Nat → Option (List Nat)
  | [] => some []
  | j :: js => do
    let s ← sample (morton i j)
    let rest ← mdRow sample dec i js
    pure (dec s ++ rest)

/-- The outer `for i in range (height)` loop of `morton_decode`. -/
def mdPix (g : Nat → Option (List Nat)) : List Nat → Option (List (List Nat))
  | [] => some []
  | i :: is => do
    let row ← g i
    let rest ← mdPix g is
    pure (row :: rest)

/-- `morton_decode (raw, decoder)` for a `width × height` texture: the last
`width*height*2` bytes of `raw` are `width*height` little-endian 16-bit
samples in Morton order (`none` models `struct.error` when `raw` is too
short, and `IndexError` on out-of-range sample indices). -/
def morton_decode (raw : List Nat) (w h : Nat) (dec : Nat → List Nat) :
    Option (List (List Nat)) :=
  if raw.length < w * h * 2 then none
  else
    let mip := raw.drop (raw.length - w * h * 2)
    mdPix (fun i => mdRow (mdSample mip (w * h)) dec i (List.range w)) (List.range h)

/-! ## Texture dispatcher (`pvr_decode`, source lines 11-194) -/

/-- Result of `pvr_decode`.  The source returns a pair whose first component
is either a pixel grid or an error string; `verify` failures and uncaught
`IndexError`/`struct.error` escape as exceptions. -/
inductive PvrOut where
  /-- returned `('Not a PVR texture!', '')` (magic tag mismatch) -/
  | notPvr : PvrOut
  /-- an exception other than the `verify` calls escaped (`IndexError` from
  the `TYPES[px]`/`FMTS[fmt]` lookups of the info print, a `struct.error`
  from a short header/codebook, or an `IndexError` inside a decoder) -/
  | crash : PvrOut
  /-- `verify` raised on the width/height bounds -/
  | dimFail (w h : Nat) : PvrOut
  /-- returned `('Unsupported encoding', '')` -/
  | unsupported : PvrOut
  /-- returned a pixel grid; `alpha` is `true` for mode string `'RGBA'` -/
  | ok (pix : List (List Nat)) (alpha : Bool) : PvrOut
deriving DecidableEq

/-- The `if/elif` dispatch chain of `pvr_decode` (lines 177-191): for a
supported `(px, fmt)` pair returns `(isVq, hasAlpha)`, otherwise `none`
(which the source turns into `'Unsupported encoding'`). -/
def pvrDispatch (px fmt : Nat) : Option (Bool × Bool) :=
  if px = 0 then      -- ARGB1555
    if fmt = 1 ∨ fmt = 2 then some (false, true)
    else if fmt = 3 ∨ fmt = 4 then some (true, true)
    else none
  else if px = 2 then -- ARGB4444
    if fmt = 1 ∨ fmt = 2 then some (false, true)
    else if fmt = 3 ∨ fmt = 4 then some (true, true)
    else none
  else if px = 1 then -- RGB565
    if fmt = 1 ∨ fmt = 2 then some (false, false)
    else if fmt = 3 ∨ fmt = 4 then some (true, false)
    else none
  else none

/-- The colour decoder chosen for each supported pixel format. -/
def pxDecoder (px : Nat) : Nat → List Nat :=
  if px = 0 then unpack1555 else if px = 2 then unpack4444 else unpack565

/-- `pvr_decode (data)`.  Follows the source order: magic-tag check, header
unpack (`<IBBHHH` from `data[4:16]`), truncation `data = data[:8+total]`,
the info print (whose `TYPES[px]`/`FMTS[fmt]` lookups raise `IndexError` for
`px ≥ 7` or `fmt ≥ 19`), the two dimension `verify`s, then dispatch. -/
def pvrDecode (data : List Nat) : PvrOut :=
  if data.take 4 ≠ [80, 86, 82, 84] then .notPvr  -- 'PVRT'
  else if data.length < 16 then .crash            -- struct.error on the header
  else
    let total := readLE32 data 4
    let px := data.getD 8 0
    let fmt := data.getD 9 0
    let width := readLE16 (data.drop 12) 0
    let height := readLE16 (data.drop 14) 0
    let data' := data.take (8 + total)
    if 7 ≤ px ∨ 19 ≤ fmt then .crash              -- TYPES[px] / FMTS[fmt]
    else if ¬ width < 32768 then .dimFail width height
    else if ¬ height < 32768 then .dimFail width height
    else
      match pvrDispatch px fmt with
      | none => .unsupported
      | some (isVq, alpha) =>
        match (if isVq then vq_decode data' width height (pxDecoder px)
               else morton_decode data' width height (pxDecoder px)) with
        | none => .crash
        | some pix => .ok pix alpha

/-! ## LZSS decompressor (`uncompress`, source lines 196-244) -/

/-- Write one byte into the ring buffer at `r & 4095`. -/
def ringSet (ring : Nat → Nat) (r c : Nat) : Nat → Nat :=
  fun k => if k = r % 4096 then c else ring k

/-- Ring index for a possibly negative offset: Python's `(offset + i) & MASK`
on arbitrary-precision ints equals the nonnegative remainder mod 4096. -/
def ringIdx (z : Int) : Nat :=
  (z % 4096).toNat

/-- The `for i in range (length)` copy loop of the match branch: reads
`ring[(offset + i) & MASK]`, appends it to the output and stores it at
`ring[r & MASK]`, incrementing `r`.  Returns the new ring, the new `r` and
the bytes emitted. -/
def copyMatch : (Nat → Nat) → Nat → Int → Nat → ((Nat → Nat) × Nat × List Nat)
  | ring, r, _, 0 => (ring, r, [])
  | ring, r, off, n + 1 =>
    let c := ring (ringIdx off)
    let rest := copyMatch (ringSet ring r c) (r + 1) (off + 1) n
    (rest.1, rest.2.1, c :: rest.2.2)

/-- The `while pos < len (data)` loop of `uncompress`, with explicit fuel
(each iteration advances `pos` by at least one, so `data.length + 1` fuel is
enough; see `uLoop_fuel_irrelevant`).  `none` models an `IndexError` (the
literal branch reads `data[pos]` without a bounds check, and the match branch
reads `data[pos + 1]` after checking only `pos`).  The inner
`if pos >= len (data): break` of the control-word refill is dead code (the
loop guard already holds) and is omitted. -/
def uLoop (data : List Nat) (extra : Nat) :
    Nat → Nat → Nat → Nat → (Nat → Nat) → List Nat → Option (List Nat)
  | 0, _, _, _, _, _ => none
  | fuel + 1, pos, ctl, r, ring, out =>
    if pos < data.length then
      -- control-word refill (sentinel bit 8)
      let ctlPos := if ctl &&& 256 = 0 then ((data.getD pos 0) ||| 0xff00, pos + 1)
                    else (ctl, pos)
      let ctl' := ctlPos.1
      let pos' := ctlPos.2
      if ctl' &&& 1 = 1 then
        -- literal byte
        if pos' < data.length then
          let c := data.getD pos' 0
          uLoop data extra fuel (pos' + 1) (ctl' >>> 1) (r + 1) (ringSet ring r c)
            (out ++ [c])
        else none
      else
        -- back-reference
        if data.length ≤ pos' then some out
        else if pos' + 1 < data.length then
          let b0 := data.getD pos' 0
          let b1 := data.getD (pos' + 1) 0
          let word := (b1 <<< 8) ||| b0
          let base := (word >>> 4) &&& 0xfff
          let len := (word &&& 0xf) + extra
          let s := copyMatch ring r ((r : Int) - ((base : Int) + 1)) len
          uLoop data extra fuel (pos' + 2) (ctl' >>> 1) s.2.1 s.1 (out ++ s.2.2)
        else none
    else some out

/-- `uncompress (data, extra)`: the source increments `extra` before the loop
(`extra += 1`), zero-fills the ring and starts with `ctl = 0` (which forces a
refill on the first iteration). -/
def uncompress (data : List Nat) (extra : Nat) : Option (List Nat) :=
  uLoop data (extra + 1) (data.length + 1) 0 0 0 (fun _ => 0) []

/-! ## Archive driver (`main`, source lines 294-330) -/

/-- One archive entry as read from the archive: the header fields
`uncompressed`/`compressed`/`mode`, the payload bytes (`f.read (compressed)`),
and whether the manifest path contains `'.pvr'`. -/
structure Entry where
  uncompressed : Nat
  compressed : Nat
  mode : Nat
  payload : List Nat
  isPvr : Bool
deriving DecidableEq

/-- The exception that escapes the per-entry loop body (aborting the whole
batch, since `main` has no try/except around these). -/
inductive Reason where
  /-- `rate = 100*compressed/uncompressed` divides by zero -/
  | divByZero : Reason
  /-- `MODES[mode]` in the info print raises `IndexError` for `mode ≥ 3`
  (reached before the `raise Exception ('Unknown compression mode')`, which
  is dead code) -/
  | modeIndexError (mode : Nat) : Reason
  /-- `IndexError` inside `uncompress` -/
  | payloadIndexError : Reason
  /-- `verify (len (data) == uncompressed, ...)` failed; carries the expected
  and actual lengths reported in the message -/
  | lengthMismatch (expected actual : Nat) : Reason
  /-- an exception escaped `pvr_decode` (called outside the try block) -/
  | pvrCrash : Reason
  /-- the dimension `verify` inside `pvr_decode` raised -/
  | pvrDimension (w h : Nat) : Reason
deriving DecidableEq

/-- What the loop body does with one entry. -/
inductive Outcome where
  /-- wrote bytes to disk (plain file, or raw fallback for a texture the
  decoder rejected) -/
  | wrote (d : List Nat) : Outcome
  /-- decoded a texture and saved it as PNG -/
  | png (pix : List (List Nat)) : Outcome
  /-- an exception escaped the loop body -/
  | abort (r : Reason) : Outcome
deriving DecidableEq

/-- The loop body of `main` for one entry (source lines 294-330), in source
order: the compression-ratio print (divides by `uncompressed`), the
`MODES[mode]` lookup, decompression and the length `verify` for modes 1 and 2,
then — for `.pvr` paths — `data[16:]` and `pvr_decode`, whose string results
fail the `verify` inside the try block and fall back to dumping the raw
bytes.  A decode exception from `pvr_decode` itself is raised outside the
try block.  The PNG serialisation after a successful decode is an external
collaborator and is modelled as succeeding. -/
def processEntry (e : Entry) : Outcome :=
  if e.uncompressed = 0 then .abort .divByZero
  else if 3 ≤ e.mode then .abort (.modeIndexError e.mode)
  else
    let dataOpt : Option (List Nat) :=
      if e.mode = 0 then some e.payload else uncompress e.payload e.mode
    match dataOpt with
    | none => .abort .payloadIndexError
    | some d =>
      if e.mode ≠ 0 ∧ d.length ≠ e.uncompressed then
        .abort (.lengthMismatch e.uncompressed d.length)
      else if e.isPvr then
        let d' := d.drop 16
        match pvrDecode d' with
        | .notPvr => .wrote d'        -- verify fails inside try; raw dump
        | .unsupported => .wrote d'   -- same fallback
        | .ok pix _ => .png pix
        | .crash => .abort .pvrCrash
        | .dimFail w h => .abort (.pvrDimension w h)
      else .wrote d

/-- The `for i in range (count)` loop of `main`: processes entries in order;
an abort (uncaught exception) stops the batch, leaving the remaining entries
unprocessed. -/
def processBatch : List Entry → List Outcome × Option Reason
  | [] => ([], none)
  | e :: es =>
    match processEntry e with
    | .abort r => ([], some r)
    | o => let rest := processBatch es; (o :: rest.1, rest.2)

/-! ## C5 — pixel unpacker scaling -/

/-- Masking with `31` is reduction mod 32. -/
theorem and31_eq_mod (x : Nat) : x &&& 31 = x % 32 := by
  simpa using Nat.and_pow_two_sub_one_eq_mod x 5

/-- Masking with `15` is reduction mod 16. -/
theorem and15_eq_mod (x : Nat) : x &&& 15 = x % 16 := by
  simpa using Nat.and_pow_two_sub_one_eq_mod x 4

/-- Masking with `63` is reduction mod 64. -/
theorem and63_eq_mod (x : Nat) : x &&& 63 = x % 64 := by
  simpa using Nat.and_pow_two_sub_one_eq_mod x 6

/-- C5: for every 16-bit packed sample, the three pixel unpackers scale each
`n`-bit channel value `v` (the corresponding bit field of the sample) to
`255 * v / max` with truncating division, the 1555 alpha bit `b` maps to
`255 * b`, and the boundary samples `0` and `0xFFFF` map to all-0 and all-255
channels. -/
theorem unpack_scaling (c : Nat) (hc : c < 65536) :
    unpack1555 c = [255 * (c / 1024 % 32) / 31, 255 * (c / 32 % 32) / 31,
                    255 * (c % 32) / 31, 255 * (c / 32768)] ∧
    unpack4444 c = [255 * (c / 256 % 16) / 15, 255 * (c / 16 % 16) / 15,
                    255 * (c % 16) / 15, 255 * (c / 4096 % 16) / 15] ∧
    unpack565 c = [255 * (c / 2048 % 32) / 31, 255 * (c / 32 % 64) / 63,
                   255 * (c % 32) / 31] ∧
    unpack1555 0 = [0, 0, 0, 0] ∧ unpack1555 65535 = [255, 255, 255, 255] ∧
    unpack565 0 = [0, 0, 0] ∧ unpack565 65535 = [255, 255, 255] := by
  have halpha : c / 32768 % 32 = c / 32768 := Nat.mod_eq_of_lt (by omega)
  refine ⟨?_, ?_, ?_, by decide, by decide, by decide, by decide⟩ <;>
    (simp only [unpack1555, unpack4444, unpack565, Nat.shiftRight_eq_div_pow,
        and31_eq_mod, and15_eq_mod, and63_eq_mod] <;> norm_num [halpha])

/-- Witness for C5 at the concrete sample `0x1234`. -/
theorem unpack_scaling_witness :
    4660 < 65536 ∧
    (unpack1555 4660 = [255 * (4660 / 1024 % 32) / 31, 255 * (4660 / 32 % 32) / 31,
                        255 * (4660 % 32) / 31, 255 * (4660 / 32768)] ∧
     unpack4444 4660 = [255 * (4660 / 256 % 16) / 15, 255 * (4660 / 16 % 16) / 15,
                        255 * (4660 % 16) / 15, 255 * (4660 / 4096 % 16) / 15] ∧
     unpack565 4660 = [255 * (4660 / 2048 % 32) / 31, 255 * (4660 / 32 % 64) / 63,
                       255 * (4660 % 32) / 31] ∧
     unpack1555 0 = [0, 0, 0, 0] ∧ unpack1555 65535 = [255, 255, 255, 255] ∧
     unpack565 0 = [0, 0, 0] ∧ unpack565 65535 = [255, 255, 255]) :=
  ⟨by decide, unpack_scaling 4660 (by decide)⟩

/-! ## C6 — dispatch on unsupported combinations -/

/-- The dispatch chain returns `none` exactly outside the supported table
(three pixel formats crossed with the four supported encodings). -/
theorem pvrDispatch_eq_none (px fmt : Nat)
    (h : ¬ ((px = 0 ∨ px = 1 ∨ px = 2) ∧
            (fmt = 1 ∨ fmt = 2 ∨ fmt = 3 ∨ fmt = 4))) :
    pvrDispatch px fmt = none := by
  simp only [pvrDispatch]
  split_ifs <;> tauto

/-- C6 counterexample: the header with `pixel_format = 7` (not a named
format, so certainly not a supported combination) makes `pvr_decode` raise
`IndexError` at the `TYPES[px]` lookup of the info print instead of
returning the unsupported-encoding result. -/
theorem pvr_crash_on_bad_px :
    pvrDecode [80, 86, 82, 84, 8, 0, 0, 0, 7, 1, 0, 0, 8, 0, 8, 0] =
      PvrOut.crash ∧
    pvrDispatch 7 1 = none := by decide

/-- C6 (amended): for every texture payload with the `PVRT` tag, a complete
header, *named* pixel and encoding formats (`px < 7`, `fmt < 19`) and
in-range dimensions, if `(px, fmt)` is not one of the supported
combinations then `pvr_decode` returns the unsupported-encoding result. -/
theorem pvr_unsupported_encoding (data : List Nat)
    (hmagic : data.take 4 = [80, 86, 82, 84])
    (hlen : 16 ≤ data.length)
    (hpx : data.getD 8 0 < 7) (hfmt : data.getD 9 0 < 19)
    (hw : readLE16 (data.drop 12) 0 < 32768)
    (hh : readLE16 (data.drop 14) 0 < 32768)
    (hns : ¬ ((data.getD 8 0 = 0 ∨ data.getD 8 0 = 1 ∨ data.getD 8 0 = 2) ∧
              (data.getD 9 0 = 1 ∨ data.getD 9 0 = 2 ∨
               data.getD 9 0 = 3 ∨ data.getD 9 0 = 4))) :
    pvrDecode data = PvrOut.unsupported := by
  have hd := pvrDispatch_eq_none _ _ hns
  simp only [pvrDecode, hmagic, hd]
  have h1 : ¬ (data.length < 16) := by omega
  have h2 : ¬ (7 ≤ data.getD 8 0 ∨ 19 ≤ data.getD 9 0) := by omega
  simp [h1, h2, hw, hh]
  constructor
  · simpa using hpx
  · simpa using hfmt

/-- Witness for C6 (amended): a `YUV422` twiddled header is rejected as
unsupported. -/
theorem pvr_unsupported_encoding_witness :
    pvrDecode [80, 86, 82, 84, 8, 0, 0, 0, 3, 1, 0, 0, 8, 0, 8, 0] =
      PvrOut.unsupported :=
  pvr_unsupported_encoding _ (by decide) (by decide) (by decide) (by decide)
    (by decide) (by decide) (by decide)

/-! ## C7 — error propagation in the archive driver -/

/-- C7 counterexample: a length mismatch on the first entry aborts the whole
batch — the second, perfectly healthy entry is never processed and nothing
is written for it.  (`uncompress [] 2 = some []`, and `0 ≠ 1`.) -/
theorem batch_abort_on_length_mismatch :
    processBatch [⟨1, 0, 2, [], false⟩, ⟨1, 1, 0, [42], false⟩] =
      ([], some (.lengthMismatch 1 0)) ∧
    processEntry ⟨1, 1, 0, [42], false⟩ = .wrote [42] := by decide

/-- C7 (amended): the only decode-level failures the driver survives are the
ones `pvr_decode` *returns* (missing magic tag, unsupported encoding): such
an entry falls back to writing the raw decompressed bytes and the batch
continues with the remaining entries.  (Length mismatches, out-of-range
modes, zero declared sizes and exceptions escaping `pvr_decode` abort the
whole batch, as the counterexample shows.) -/
theorem batch_continues_on_texture_fallback (e : Entry) (es : List Entry)
    (d : List Nat)
    (h0 : e.uncompressed ≠ 0) (hm : e.mode < 3)
    (hd : if e.mode = 0 then d = e.payload
          else uncompress e.payload e.mode = some d ∧ d.length = e.uncompressed)
    (hpvr : e.isPvr = true →
      pvrDecode (d.drop 16) = .notPvr ∨ pvrDecode (d.drop 16) = .unsupported) :
    processEntry e = .wrote (if e.isPvr then d.drop 16 else d) ∧
    processBatch (e :: es) =
      (.wrote (if e.isPvr then d.drop 16 else d) :: (processBatch es).1,
       (processBatch es).2) := by
  have h3 : ¬ 3 ≤ e.mode := by omega
  have hE : processEntry e = .wrote (if e.isPvr then d.drop 16 else d) := by
    by_cases hm0 : e.mode = 0
    · rw [if_pos hm0] at hd
      subst hd
      by_cases hp : e.isPvr
      · rcases hpvr hp with h | h <;> simp [processEntry, h0, h3, hm0, hp, h]
      · simp [processEntry, h0, h3, hm0, hp]
    · rw [if_neg hm0] at hd
      by_cases hp : e.isPvr
      · rcases hpvr hp with h | h <;>
          simp [processEntry, h0, h3, hm0, hp, h, hd.1, hd.2]
      · simp [processEntry, h0, h3, hm0, hp, hd.1, hd.2]
  refine ⟨hE, ?_⟩
  simp [processBatch, hE]

/-- Witness for C7 (amended): a plain (non-texture) raw-mode entry is
written out and the batch goes on. -/
theorem batch_continues_witness :
    processEntry ⟨3, 9, 0, [1, 2, 3], false⟩ = .wrote [1, 2, 3] ∧
    processBatch [⟨3, 9, 0, [1, 2, 3], false⟩] =
      (.wrote [1, 2, 3] :: (processBatch []).1, (processBatch []).2) := by
  have h := batch_continues_on_texture_fallback ⟨3, 9, 0, [1, 2, 3], false⟩ []
    [1, 2, 3] (by decide) (by decide) (by decide) (by decide)
  simpa using h

/-! ## C8 — length-mismatch reporting -/

/-- C8 counterexample: an entry whose declared `uncompressed_size` is `0`
while its payload decompresses to one byte fails with the
`ZeroDivisionError` of the compression-ratio print (line 303), not with the
length-mismatch error, so neither length is reported. -/
theorem length_mismatch_masked_by_div_zero :
    uncompress [1, 65] 2 = some [65] ∧ ([65] : List Nat).length ≠ 0 ∧
    processEntry ⟨0, 2, 2, [1, 65], false⟩ = .abort .divByZero := by decide

/-- C8 (amended): for every compressed entry (modes 1 and 2) with a nonzero
declared size, if decompression returns and its length differs from the
declared `uncompressed_size` — by any amount — the entry fails with a
length-mismatch error carrying both the expected and the actual length; the
output is never truncated or padded. -/
theorem length_mismatch_reported (e : Entry) (d : List Nat)
    (h0 : e.uncompressed ≠ 0) (hm : e.mode = 1 ∨ e.mode = 2)
    (hu : uncompress e.payload e.mode = some d)
    (hne : d.length ≠ e.uncompressed) :
    processEntry e = .abort (.lengthMismatch e.uncompressed d.length) := by
  have h3 : ¬ 3 ≤ e.mode := by omega
  have hm0 : e.mode ≠ 0 := by omega
  simp [processEntry, h0, h3, hm0, hu, hne]

/-- Witness for C8 (amended): declared size 5, actual decompressed length 1. -/
theorem length_mismatch_reported_witness :
    processEntry ⟨5, 2, 2, [1, 65], false⟩ = .abort (.lengthMismatch 5 1) :=
  length_mismatch_reported ⟨5, 2, 2, [1, 65], false⟩ [65] (by decide)
    (by decide) (by decide) (by decide)

/-! ## C9 — counterexample: decompression is not total -/

/-- C9 counterexample: the single-byte payload `[1]` is consumed as a control
byte whose first bit requests a literal; the literal read `data[pos]` is out
of bounds and `uncompress` raises (`none`), instead of terminating cleanly. -/
theorem uncompress_crash_on_truncated_literal : uncompress [1] 1 = none := by
  decide

/-! ## C3 — twiddled decoder structure -/

/-- `List.range` element as `getD`. -/
theorem range_getD (m n : Nat) (h : n < m) : (List.range m).getD n 0 = n := by
  simp [List.getD, List.getElem?_range h]

/-- Row structure of `mdRow`: the row is the concatenation of one decoded
sample per column index, so its length is `c * |js|` and the `n`-th
`c`-byte segment is the decoded sample for column `js[n]`. -/
theorem mdRow_parts (sample : Nat → Option Nat) (dec : Nat → List Nat)
    (i c : Nat) (hc : ∀ s, (dec s).length = c) :
    ∀ js row, mdRow sample dec i js = some row →
      row.length = c * js.length ∧
      ∀ n, n < js.length →
        ∃ s, sample (morton i (js.getD n 0)) = some s ∧
          (row.drop (c * n)).take c = dec s := by
  intro js
  induction js with
  | nil =>
    intro row h
    simp only [mdRow, Option.some.injEq] at h
    subst h
    simp
  | cons j js ih =>
    intro row h
    simp only [mdRow, Option.bind_eq_bind, Option.pure_def, Option.bind_eq_some,
      Option.some.injEq] at h
    obtain ⟨s, hs, rest, hr, heq⟩ := h
    subst heq
    obtain ⟨hlen, hseg⟩ := ih rest hr
    have hds : (dec s).length = c := hc s
    refine ⟨by simp [hlen, hds, Nat.mul_succ, Nat.add_comm], ?_⟩
    intro n hn
    simp only [List.length_cons] at hn
    cases n with
    | zero =>
      refine ⟨s, by simpa using hs, ?_⟩
      have : (dec s ++ rest).take c = dec s := by
        rw [← hds]
        simpa using List.take_append 0
      simp only [Nat.mul_zero, List.drop_zero]
      exact this
    | succ m =>
      obtain ⟨s', h1, h2⟩ := hseg m (by omega)
      refine ⟨s', by simpa using h1, ?_⟩
      have hd : (dec s ++ rest).drop (c * (m + 1)) = rest.drop (c * m) := by
        have : c * (m + 1) = (dec s).length + c * m := by rw [hds]; ring
        rw [this, List.drop_append]
      rw [hd]
      exact h2

/-- Grid structure of `mdPix`: one row per index, in order. -/
theorem mdPix_parts (g : Nat → Option (List Nat)) :
    ∀ is pix, mdPix g is = some pix →
      pix.length = is.length ∧
      ∀ n, n < is.length →
        ∃ row, g (is.getD n 0) = some row ∧ pix.getD n [] = row := by
  intro is
  induction is with
  | nil =>
    intro pix h
    simp only [mdPix, Option.some.injEq] at h
    subst h
    simp
  | cons i is ih =>
    intro pix h
    simp only [mdPix, Option.bind_eq_bind, Option.pure_def, Option.bind_eq_some,
      Option.some.injEq] at h
    obtain ⟨row, hrow, rest, hrest, heq⟩ := h
    subst heq
    obtain ⟨hlen, hget⟩ := ih rest hrest
    refine ⟨by simp [hlen], ?_⟩
    intro n hn
    simp only [List.length_cons] at hn
    cases n with
    | zero => exact ⟨row, by simpa using hrow, rfl⟩
    | succ m =>
      obtain ⟨row', h1, h2⟩ := hget m (by omega)
      exact ⟨row', by simpa using h1, by simpa using h2⟩

/-- C3: for every twiddled-decoded texture, the decoder reads the last
`width*height*2` bytes of the payload as `width*height` little-endian 16-bit
samples, and the output is `height` rows of `width` pixels where the pixel
at row `i`, column `j` is the unpacking of the sample at Morton index
`interleave (i, j)` (which is in particular in range). -/
theorem morton_decode_spec (raw : List Nat) (w h c : Nat)
    (dec : Nat → List Nat) (pix : List (List Nat))
    (hpix : morton_decode raw w h dec = some pix)
    (hc : ∀ s, (dec s).length = c) :
    w * h * 2 ≤ raw.length ∧
    pix.length = h ∧
    (∀ i, i < h → (pix.getD i []).length = c * w) ∧
    (∀ i j, i < h → j < w →
      morton i j < w * h ∧
      ((pix.getD i []).drop (c * j)).take c =
        dec (readLE16 (raw.drop (raw.length - w * h * 2)) (morton i j))) := by
  rw [morton_decode] at hpix
  split at hpix
  · exact absurd hpix (by simp)
  · rename_i hguard
    obtain ⟨hlen, hget⟩ := mdPix_parts _ _ _ hpix
    rw [List.length_range] at hlen
    have hrowfact : ∀ i, i < h →
        ∃ row, mdRow (mdSample (raw.drop (raw.length - w * h * 2)) (w * h)) dec i
            (List.range w) = some row ∧ pix.getD i [] = row := by
      intro i hi
      obtain ⟨row, h1, h2⟩ := hget i (by simpa using hi)
      rw [range_getD _ _ hi] at h1
      exact ⟨row, h1, h2⟩
    refine ⟨by omega, hlen, ?_, ?_⟩
    · intro i hi
      obtain ⟨row, h1, h2⟩ := hrowfact i hi
      obtain ⟨hl, _⟩ := mdRow_parts _ _ _ _ hc _ _ h1
      rw [h2, hl, List.length_range]
    · intro i j hi hj
      obtain ⟨row, h1, h2⟩ := hrowfact i hi
      obtain ⟨_, hseg⟩ := mdRow_parts _ _ _ _ hc _ _ h1
      obtain ⟨s, hs, hseg'⟩ := hseg j (by simpa using hj)
      rw [range_getD _ _ hj] at hs
      rw [mdSample] at hs
      split at hs
      · rename_i hin
        simp only [Option.some.injEq] at hs
        subst hs
        exact ⟨hin, by rw [h2]; exact hseg'⟩
      · exact absurd hs (by simp)

/-- Witness for C3: a concrete 2×2 ARGB1555 twiddled texture, checking the
pixel at row 1, column 1 (Morton index 3). -/
theorem morton_decode_spec_witness :
    morton 1 1 < 2 * 2 ∧
    ((([[0, 131, 8, 0, 8, 131, 41, 0], [8, 0, 24, 0, 16, 0, 57, 0]] :
        List (List Nat)).getD 1 []).drop (4 * 1)).take 4 =
      unpack1555 (readLE16 (([1, 2, 3, 4, 5, 6, 7, 8] : List Nat).drop
        (8 - 2 * 2 * 2)) (morton 1 1)) := by
  have hpix : morton_decode [1, 2, 3, 4, 5, 6, 7, 8] 2 2 unpack1555 =
      some [[0, 131, 8, 0, 8, 131, 41, 0], [8, 0, 24, 0, 16, 0, 57, 0]] := by
    decide
  have h := morton_decode_spec [1, 2, 3, 4, 5, 6, 7, 8] 2 2 4 unpack1555 _
    hpix (fun s => rfl)
  exact ⟨(h.2.2.2 1 1 (by decide) (by decide)).1,
         (h.2.2.2 1 1 (by decide) (by decide)).2⟩

/-! ## C2 — VQ decoder structure -/

/-- Row-pair structure of `vqRow`: both half-rows are concatenations of one
`L`-byte segment per block column, and the `n`-th segment pair comes from the
block at column `js[n]`. -/
theorem vqRow_parts (f : Nat → Option (List Nat × List Nat)) (L : Nat)
    (hf : ∀ j p, f j = some p → p.1.length = L ∧ p.2.length = L) :
    ∀ js p, vqRow f js = some p →
      p.1.length = L * js.length ∧ p.2.length = L * js.length ∧
      ∀ n, n < js.length →
        ∃ q, f (js.getD n 0) = some q ∧
          (p.1.drop (L * n)).take L = q.1 ∧
          (p.2.drop (L * n)).take L = q.2 := by
  intro js
  induction js with
  | nil =>
    intro p hp
    simp only [vqRow, Option.some.injEq] at hp
    subst hp
    simp
  | cons j js ih =>
    intro p hp
    simp only [vqRow, Option.bind_eq_bind, Option.pure_def, Option.bind_eq_some,
      Option.some.injEq] at hp
    obtain ⟨b, hb, rest, hrest, heq⟩ := hp
    subst heq
    obtain ⟨hb1, hb2⟩ := hf j b hb
    obtain ⟨hr1, hr2, hseg⟩ := ih rest hrest
    refine ⟨by simp [hr1, hb1, Nat.mul_succ, Nat.add_comm],
            by simp [hr2, hb2, Nat.mul_succ, Nat.add_comm], ?_⟩
    intro n hn
    simp only [List.length_cons] at hn
    cases n with
    | zero =>
      refine ⟨b, by simpa using hb, ?_, ?_⟩
      · have : (b.1 ++ rest.1).take L = b.1 := by
          rw [← hb1]; simpa using List.take_append 0
        simpa using this
      · have : (b.2 ++ rest.2).take L = b.2 := by
          rw [← hb2]; simpa using List.take_append 0
        simpa using this
    | succ m =>
      obtain ⟨q, h1, h2, h3⟩ := hseg m (by omega)
      refine ⟨q, by simpa using h1, ?_, ?_⟩
      · have hd : (b.1 ++ rest.1).drop (L * (m + 1)) = rest.1.drop (L * m) := by
          have : L * (m + 1) = b.1.length + L * m := by rw [hb1]; ring
          rw [this, List.drop_append]
        rw [hd]; exact h2
      · have hd : (b.2 ++ rest.2).drop (L * (m + 1)) = rest.2.drop (L * m) := by
          have : L * (m + 1) = b.2.length + L * m := by rw [hb2]; ring
          rw [this, List.drop_append]
        rw [hd]; exact h3

/-- Grid structure of `vqPix`: two rows per index, in order `row0` then
`row1`. -/
theorem vqPix_parts (g : Nat → Option (List Nat × List Nat)) :
    ∀ is pix, vqPix g is = some pix →
      pix.length = 2 * is.length ∧
      ∀ n, n < is.length →
        ∃ p, g (is.getD n 0) = some p ∧
          pix.getD (2 * n) [] = p.1 ∧ pix.getD (2 * n + 1) [] = p.2 := by
  intro is
  induction is with
  | nil =>
    intro pix h
    simp only [vqPix, Option.some.injEq] at h
    subst h
    simp
  | cons i is ih =>
    intro pix h
    simp only [vqPix, Option.bind_eq_bind, Option.pure_def, Option.bind_eq_some,
      Option.some.injEq] at h
    obtain ⟨p, hp, rest, hrest, heq⟩ := h
    subst heq
    obtain ⟨hlen, hget⟩ := ih rest hrest
    refine ⟨by simp [hlen]; ring, ?_⟩
    intro n hn
    simp only [List.length_cons] at hn
    cases n with
    | zero => exact ⟨p, by simpa using hp, rfl, rfl⟩
    | succ m =>
      obtain ⟨q, h1, h2, h3⟩ := hget m (by omega)
      refine ⟨q, by simpa using h1, ?_, ?_⟩
      · have : 2 * (m + 1) = 2 * m + 1 + 1 := by ring
        rw [this]
        simpa using h2
      · have : 2 * (m + 1) + 1 = 2 * m + 1 + 1 + 1 := by ring
        rw [this]
        simpa using h3

/-- C2: for every successfully VQ-decoded texture with even dimensions, the
output is `height` rows of `width` pixels, and the 2×2 block at grid
position `(i, j)` of the `(height/2, width/2)` grid is taken from codebook
entry `4 * lut[interleave (i, j)]`, samples `+0`/`+2` forming the top row and
`+1`/`+3` the bottom row; the index table is the trailing `width*height/4`
bytes of the payload. -/
theorem vq_decode_spec (raw : List Nat) (w h c : Nat) (dec : Nat → List Nat)
    (pix : List (List Nat))
    (hpix : vq_decode raw w h dec = some pix)
    (hc : ∀ s, (dec s).length = c) (hw : w % 2 = 0) (hh : h % 2 = 0) :
    2064 ≤ raw.length ∧
    pix.length = h ∧
    (∀ i, i < h → (pix.getD i []).length = c * w) ∧
    (∀ i j, i < h / 2 → j < w / 2 →
      ∃ v, (vqLut raw w h).get? (morton i j) = some v ∧
        ((pix.getD (2 * i) []).drop (2 * c * j)).take (2 * c) =
          dec (vqBook raw (4 * v)) ++ dec (vqBook raw (4 * v + 2)) ∧
        ((pix.getD (2 * i + 1) []).drop (2 * c * j)).take (2 * c) =
          dec (vqBook raw (4 * v + 1)) ++ dec (vqBook raw (4 * v + 3))) ∧
    (w * h / 4 ≤ raw.length →
      vqLut raw w h = raw.drop (raw.length - w * h / 4)) := by
  rw [vq_decode] at hpix
  split at hpix
  · exact absurd hpix (by simp)
  · rename_i hguard
    have hblock : ∀ i j p,
        vqBlock (vqBook raw) dec (vqLut raw w h) i j = some p →
        p.1.length = 2 * c ∧ p.2.length = 2 * c := by
      intro i j p hp
      rw [vqBlock, Option.map_eq_some'] at hp
      obtain ⟨v, _, hv⟩ := hp
      subst hv
      constructor <;> simp [hc] <;> ring
    obtain ⟨hlen, hget⟩ := vqPix_parts _ _ _ hpix
    rw [List.length_range] at hlen
    have hrowfact : ∀ n, n < h / 2 →
        ∃ p, vqRow (vqBlock (vqBook raw) dec (vqLut raw w h) n)
            (List.range (w / 2)) = some p ∧
          pix.getD (2 * n) [] = p.1 ∧ pix.getD (2 * n + 1) [] = p.2 := by
      intro n hn
      obtain ⟨p, h1, h2, h3⟩ := hget n (by simpa using hn)
      rw [range_getD _ _ hn] at h1
      exact ⟨p, h1, h2, h3⟩
    have hh2 : h = 2 * (h / 2) := by omega
    have hw2 : w = 2 * (w / 2) := by omega
    refine ⟨by omega, by omega, ?_, ?_, ?_⟩
    · intro i hi
      obtain ⟨p, h1, h2, h3⟩ := hrowfact (i / 2) (by omega)
      obtain ⟨hl1, hl2, _⟩ := vqRow_parts _ _ (hblock (i / 2)) _ _ h1
      rw [List.length_range] at hl1 hl2
      have hcw : 2 * c * (w / 2) = c * w := by
        conv_rhs => rw [hw2]
        ring
      rcases Nat.even_or_odd i with ⟨k, hk⟩ | ⟨k, hk⟩
      · have : i = 2 * (i / 2) := by omega
        rw [this, h2, hl1, hcw]
      · have : i = 2 * (i / 2) + 1 := by omega
        rw [this, h3, hl2, hcw]
    · intro i j hi hj
      obtain ⟨p, h1, h2, h3⟩ := hrowfact i hi
      obtain ⟨_, _, hseg⟩ := vqRow_parts _ _ (hblock i) _ _ h1
      obtain ⟨q, hq, hq1, hq2⟩ := hseg j (by simpa using hj)
      rw [range_getD _ _ hj] at hq
      rw [vqBlock, Option.map_eq_some'] at hq
      obtain ⟨v, hv, hveq⟩ := hq
      subst hveq
      exact ⟨v, hv, by rw [h2]; exact hq1, by rw [h3]; exact hq2⟩
    · intro htail
      rw [vqLut, pyTail, if_pos (by omega)]
      congr 1
      omega

/-- C2 counterexample: with odd height 1 (and enough payload for the
codebook), `vq_decode` succeeds but produces `2 * (1 / 2) = 0` rows instead
of `height = 1` rows, because the loop runs over `range (height // 2)`. -/
theorem vq_decode_odd_height :
    vq_decode (List.replicate 2064 0) 2 1 unpack1555 = some [] ∧
    ([] : List (List Nat)).length ≠ 1 := by
  refine ⟨?_, by decide⟩
  rw [vq_decode, if_neg (by rw [List.length_replicate]; omega)]
  rfl

/-- The codebook of an all-zero payload is all zero. -/
theorem vqBook_replicate_zero (k : Nat) :
    vqBook (List.replicate 2064 0) k = 0 := by
  have hg : ∀ m : Nat, (List.replicate (2064 - 16) (0 : Nat)).getD m 0 = 0 := by
    intro m
    rw [List.getD, List.get?_eq_getElem?, List.getElem?_replicate]
    split <;> rfl
  rw [vqBook, readLE16, List.drop_replicate, hg, hg]

/-- The index table of the all-zero 2×2 VQ payload is the single trailing
byte. -/
theorem vqLut_replicate_zero :
    vqLut (List.replicate 2064 0) 2 2 = [0] := by
  rw [vqLut, List.length_replicate, pyTail, if_pos (by decide)]
  rw [List.drop_replicate]
  decide

/-- Witness for C2 at the all-zero 2×2 VQ texture. -/
theorem vq_decode_spec_witness :
    ([[0, 0, 0, 0, 0, 0, 0, 0], [0, 0, 0, 0, 0, 0, 0, 0]] :
      List (List Nat)).length = 2 ∧
    (∃ v, (vqLut (List.replicate 2064 0) 2 2).get? (morton 0 0) = some v ∧
      ((([[0, 0, 0, 0, 0, 0, 0, 0], [0, 0, 0, 0, 0, 0, 0, 0]] :
          List (List Nat)).getD 0 []).drop 0).take 8 =
        unpack1555 (vqBook (List.replicate 2064 0) (4 * v)) ++
          unpack1555 (vqBook (List.replicate 2064 0) (4 * v + 2)) ∧
      ((([[0, 0, 0, 0, 0, 0, 0, 0], [0, 0, 0, 0, 0, 0, 0, 0]] :
          List (List Nat)).getD 1 []).drop 0).take 8 =
        unpack1555 (vqBook (List.replicate 2064 0) (4 * v + 1)) ++
          unpack1555 (vqBook (List.replicate 2064 0) (4 * v + 3))) := by
  have hpix : vq_decode (List.replicate 2064 0) 2 2 unpack1555 =
      some [[0, 0, 0, 0, 0, 0, 0, 0], [0, 0, 0, 0, 0, 0, 0, 0]] := by
    rw [vq_decode, if_neg (by rw [List.length_replicate]; omega)]
    show vqPix _ (List.range 1) = _
    have hrange : List.range 1 = [0] := by decide
    rw [hrange]
    simp only [vqPix, vqRow, vqBlock, vqLut_replicate_zero,
      vqBook_replicate_zero, Option.bind_eq_bind]
    decide
  have h := vq_decode_spec (List.replicate 2064 0) 2 2 4 unpack1555 _ hpix
    (fun s => rfl) rfl rfl
  obtain ⟨v, hv, h1, h2⟩ := h.2.2.2.1 0 0 (by decide) (by decide)
  exact ⟨by decide, v, hv, h1, h2⟩

/-! ## C4 — Morton interleave properties

The masked-shift pipeline is characterised bit by bit, one stage at a time:
after the stage with shift `s`, the 16 input bits sit in groups of `s` bits
repeating with period `2s`, and output bit `k` holds input bit
`k % (2s) + s * (k / (2s))`. -/

/-- Bits at or above the width of a bounded number are clear. -/
theorem testBit_ge (x k n : Nat) (hx : x < 2 ^ n) (hk : n ≤ k) :
    x.testBit k = false :=
  Nat.testBit_lt_two_pow
    (lt_of_lt_of_le hx (Nat.pow_le_pow_right (by norm_num) hk))

/-- Bit pattern of the stage-1 mask `0x00ff00ff`. -/
theorem testBit_mask8 (k : Nat) :
    (0x00ff00ff : Nat).testBit k = (decide (k % 16 < 8) && decide (k < 32)) := by
  by_cases h : k < 32
  · interval_cases k <;> decide
  · rw [testBit_ge _ _ 32 (by norm_num) (by omega),
      decide_eq_false (by omega : ¬ k < 32)]
    simp

/-- Bit pattern of the stage-2 mask `0x0f0f0f0f`. -/
theorem testBit_mask4 (k : Nat) :
    (0x0f0f0f0f : Nat).testBit k = (decide (k % 8 < 4) && decide (k < 32)) := by
  by_cases h : k < 32
  · interval_cases k <;> decide
  · rw [testBit_ge _ _ 32 (by norm_num) (by omega),
      decide_eq_false (by omega : ¬ k < 32)]
    simp

/-- Bit pattern of the stage-3 mask `0x33333333`. -/
theorem testBit_mask2 (k : Nat) :
    (0x33333333 : Nat).testBit k = (decide (k % 4 < 2) && decide (k < 32)) := by
  by_cases h : k < 32
  · interval_cases k <;> decide
  · rw [testBit_ge _ _ 32 (by norm_num) (by omega),
      decide_eq_false (by omega : ¬ k < 32)]
    simp

/-- Bit pattern of the stage-4 mask `0x55555555`. -/
theorem testBit_mask1 (k : Nat) :
    (0x55555555 : Nat).testBit k = (decide (k % 2 < 1) && decide (k < 32)) := by
  by_cases h : k < 32
  · interval_cases k <;> decide
  · rw [testBit_ge _ _ 32 (by norm_num) (by omega),
      decide_eq_false (by omega : ¬ k < 32)]
    simp

/-- A 16-bit input is the degenerate group pattern (one group of 16). -/
theorem stage_init (x : Nat) (hx : x < 65536) :
    ∀ k, x.testBit k =
      (x.testBit (k % 32 + 16 * (k / 32)) &&
        (decide (k % 32 < 16) && decide (k < 32))) := by
  intro k
  by_cases h : k < 32
  · interval_cases k <;> simp <;> exact testBit_ge x _ 16 hx (by omega)
  · rw [testBit_ge x _ 16 hx (by omega),
      decide_eq_false (by omega : ¬ k < 32)]
    simp

/-- Stage with shift 8: groups of 16 become groups of 8 with period 16. -/
theorem stage_shift8 (x y : Nat)
    (hy : ∀ k, y.testBit k =
      (x.testBit (k % 32 + 16 * (k / 32)) &&
        (decide (k % 32 < 16) && decide (k < 32)))) :
    ∀ k, ((y ||| (y <<< 8)) &&& 0x00ff00ff).testBit k =
      (x.testBit (k % 16 + 8 * (k / 16)) &&
        (decide (k % 16 < 8) && decide (k < 32))) := by
  intro k
  rw [Nat.testBit_land, Nat.testBit_lor, Nat.testBit_shiftLeft, testBit_mask8]
  by_cases h : k < 32
  · interval_cases k <;> simp [hy]
  · rw [decide_eq_false (by omega : ¬ k < 32)]
    simp

/-- Stage with shift 4: groups of 8 become groups of 4 with period 8. -/
theorem stage_shift4 (x y : Nat)
    (hy : ∀ k, y.testBit k =
      (x.testBit (k % 16 + 8 * (k / 16)) &&
        (decide (k % 16 < 8) && decide (k < 32)))) :
    ∀ k, ((y ||| (y <<< 4)) &&& 0x0f0f0f0f).testBit k =
      (x.testBit (k % 8 + 4 * (k / 8)) &&
        (decide (k % 8 < 4) && decide (k < 32))) := by
  intro k
  rw [Nat.testBit_land, Nat.testBit_lor, Nat.testBit_shiftLeft, testBit_mask4]
  by_cases h : k < 32
  · interval_cases k <;> simp [hy]
  · rw [decide_eq_false (by omega : ¬ k < 32)]
    simp

/-- Stage with shift 2: groups of 4 become groups of 2 with period 4. -/
theorem stage_shift2 (x y : Nat)
    (hy : ∀ k, y.testBit k =
      (x.testBit (k % 8 + 4 * (k / 8)) &&
        (decide (k % 8 < 4) && decide (k < 32)))) :
    ∀ k, ((y ||| (y <<< 2)) &&& 0x33333333).testBit k =
      (x.testBit (k % 4 + 2 * (k / 4)) &&
        (decide (k % 4 < 2) && decide (k < 32))) := by
  intro k
  rw [Nat.testBit_land, Nat.testBit_lor, Nat.testBit_shiftLeft, testBit_mask2]
  by_cases h : k < 32
  · interval_cases k <;> simp [hy]
  · rw [decide_eq_false (by omega : ¬ k < 32)]
    simp

/-- Stage with shift 1: groups of 2 become single bits with period 2. -/
theorem stage_shift1 (x y : Nat)
    (hy : ∀ k, y.testBit k =
      (x.testBit (k % 4 + 2 * (k / 4)) &&
        (decide (k % 4 < 2) && decide (k < 32)))) :
    ∀ k, ((y ||| (y <<< 1)) &&& 0x55555555).testBit k =
      (x.testBit (k % 2 + 1 * (k / 2)) &&
        (decide (k % 2 < 1) && decide (k < 32))) := by
  intro k
  rw [Nat.testBit_land, Nat.testBit_lor, Nat.testBit_shiftLeft, testBit_mask1]
  by_cases h : k < 32
  · interval_cases k <;> simp [hy]
  · rw [decide_eq_false (by omega : ¬ k < 32)]
    simp

/-- Bit characterisation of the whole pipeline: for a 16-bit input, output
bit `k` is input bit `k/2` when `k` is even, clear when `k` is odd. -/
theorem part1by1_testBit (x : Nat) (hx : x < 65536) (k : Nat) :
    (part1by1 x).testBit k = (x.testBit (k / 2) && decide (k % 2 = 0)) := by
  have h := stage_shift1 x _ (stage_shift2 x _ (stage_shift4 x _
    (stage_shift8 x x (stage_init x hx)))) k
  have hpart : part1by1 x =
      ((((((x ||| (x <<< 8)) &&& 0x00ff00ff) |||
          (((x ||| (x <<< 8)) &&& 0x00ff00ff) <<< 4)) &&& 0x0f0f0f0f |||
         ((((x ||| (x <<< 8)) &&& 0x00ff00ff) |||
          (((x ||| (x <<< 8)) &&& 0x00ff00ff) <<< 4)) &&& 0x0f0f0f0f) <<< 2) &&&
           0x33333333) |||
        ((((((x ||| (x <<< 8)) &&& 0x00ff00ff) |||
          (((x ||| (x <<< 8)) &&& 0x00ff00ff) <<< 4)) &&& 0x0f0f0f0f |||
         ((((x ||| (x <<< 8)) &&& 0x00ff00ff) |||
          (((x ||| (x <<< 8)) &&& 0x00ff00ff) <<< 4)) &&& 0x0f0f0f0f) <<< 2) &&&
           0x33333333) <<< 1)) &&& 0x55555555 := rfl
  rw [hpart, h]
  by_cases h2 : k % 2 = 0
  · by_cases h32 : k < 32
    · rw [show k % 2 + 1 * (k / 2) = k / 2 from by omega,
        decide_eq_true (by omega : k % 2 < 1), decide_eq_true h32,
        decide_eq_true h2]
      simp
    · rw [decide_eq_false (by omega : ¬ k < 32),
        testBit_ge x (k / 2) 16 hx (by omega)]
      simp
  · rw [decide_eq_false (by omega : ¬ k % 2 < 1), decide_eq_false h2]
    simp

/-- The pipeline output fits in 32 bits. -/
theorem part1by1_lt (x : Nat) : part1by1 x < 4294967296 :=
  lt_of_le_of_lt Nat.and_le_right (by norm_num)

/-- Even output bits of `morton` are the bits of `x`. -/
theorem morton_testBit_even (x y : Nat) (hx : x < 65536) (k : Nat) :
    (morton x y).testBit (2 * k) = x.testBit k := by
  rw [morton, Nat.testBit_lor, Nat.testBit_shiftLeft,
    part1by1_testBit x hx (2 * k)]
  rw [show 2 * k / 2 = k from by omega, decide_eq_true (by omega : 2 * k % 2 = 0)]
  rcases Nat.eq_zero_or_pos k with hk | hk
  · subst hk
    simp
  · rw [decide_eq_true (by omega : 2 * k ≥ 1)]
    have hodd : (part1by1 y).testBit (2 * k - 1) = false := by
      by_cases hy16 : y < 65536
      · rw [part1by1_testBit y hy16 (2 * k - 1),
          decide_eq_false (by omega : ¬ (2 * k - 1) % 2 = 0)]
        simp
      · -- `part1by1` only keeps even bits regardless of the input size
        rcases Nat.lt_or_ge (2 * k - 1) 32 with h32 | h32
        · have := testBit_mask1 (2 * k - 1)
          rw [part1by1]
          rw [Nat.testBit_land, this,
            decide_eq_false (by omega : ¬ (2 * k - 1) % 2 < 1)]
          simp
        · exact testBit_ge _ _ 32 (part1by1_lt y) (by omega)
    rw [hodd]
    simp

/-- Odd output bits of `morton` are the bits of `y`. -/
theorem morton_testBit_odd (x y : Nat) (hy : y < 65536) (k : Nat) :
    (morton x y).testBit (2 * k + 1) = y.testBit k := by
  rw [morton, Nat.testBit_lor, Nat.testBit_shiftLeft,
    decide_eq_true (by omega : 2 * k + 1 ≥ 1),
    show 2 * k + 1 - 1 = 2 * k from by omega,
    part1by1_testBit y hy (2 * k),
    show 2 * k / 2 = k from by omega,
    decide_eq_true (by omega : 2 * k % 2 = 0)]
  have heven : (part1by1 x).testBit (2 * k + 1) = false := by
    rcases Nat.lt_or_ge (2 * k + 1) 32 with h32 | h32
    · rw [part1by1, Nat.testBit_land, testBit_mask1,
        decide_eq_false (by omega : ¬ (2 * k + 1) % 2 < 1)]
      simp
    · exact testBit_ge _ _ 32 (part1by1_lt x) (by omega)
  rw [heven]
  simp

/-- The bit-spread recursion (from the spec's description of the Morton
construction): the low bit of `x` goes to bit 0, and the spread of the rest
is shifted up two positions.  `f` bounds the number of bits consumed. -/
def spreadAux : Nat → Nat → Nat
  | 0, _ => 0
  | f + 1, x => x % 2 + 4 * spreadAux f (x / 2)

/-- The bit-spread of a 16-bit value: bit `k` of `x` moves to bit `2k`. -/
def spread (x : Nat) : Nat :=
  spreadAux 16 x

/-- Bit characterisation of the bit-spread recursion. -/
theorem spreadAux_testBit :
    ∀ f x k, (spreadAux f x).testBit k =
      (x.testBit (k / 2) && (decide (k % 2 = 0) && decide (k < 2 * f))) := by
  intro f
  induction f with
  | zero =>
    intro x k
    rw [spreadAux, Nat.zero_testBit, decide_eq_false (by omega : ¬ k < 2 * 0)]
    simp
  | succ f ih =>
    intro x k
    rw [spreadAux]
    match k with
    | 0 =>
      rw [Nat.testBit_zero, Nat.testBit_zero,
        show (x % 2 + 4 * spreadAux f (x / 2)) % 2 = x % 2 from by omega]
      simp
    | 1 =>
      rw [Nat.testBit_to_div_mod,
        show (x % 2 + 4 * spreadAux f (x / 2)) / 2 ^ 1 % 2 = 0 from by
          have h4 : (x % 2 + 4 * spreadAux f (x / 2)) / 2 =
              x % 2 / 2 + 2 * spreadAux f (x / 2) := by omega
          omega]
      simp
    | (k + 2) =>
      have hdiv : (x % 2 + 4 * spreadAux f (x / 2)) / 2 ^ (k + 2) % 2 =
          spreadAux f (x / 2) / 2 ^ k % 2 := by
        have h1 : (2 : Nat) ^ (k + 2) = 4 * 2 ^ k := by ring
        have h2 : (x % 2 + 4 * spreadAux f (x / 2)) / 4 = spreadAux f (x / 2) := by
          omega
        rw [h1, ← Nat.div_div_eq_div_mul, h2]
      rw [Nat.testBit_to_div_mod, hdiv, ← Nat.testBit_to_div_mod, ih (x / 2) k,
        show (k + 2) / 2 = k / 2 + 1 from by omega, ← Nat.testBit_succ]
      have e2 : decide ((k + 2) % 2 = 0) = decide (k % 2 = 0) := by
        by_cases h : k % 2 = 0
        · rw [decide_eq_true h, decide_eq_true (by omega : (k + 2) % 2 = 0)]
        · rw [decide_eq_false h, decide_eq_false (by omega : ¬ (k + 2) % 2 = 0)]
      have e3 : decide (k + 2 < 2 * (f + 1)) = decide (k < 2 * f) := by
        by_cases h : k < 2 * f
        · rw [decide_eq_true h, decide_eq_true (by omega : k + 2 < 2 * (f + 1))]
        · rw [decide_eq_false h,
            decide_eq_false (by omega : ¬ k + 2 < 2 * (f + 1))]
      rw [e2, e3]

/-- For 16-bit inputs the source pipeline computes exactly the bit-spread. -/
theorem part1by1_eq_spread (x : Nat) (hx : x < 65536) :
    part1by1 x = spread x := by
  apply Nat.eq_of_testBit_eq
  intro k
  rw [part1by1_testBit x hx k, spread, spreadAux_testBit 16 x k]
  by_cases h32 : k < 32
  · rw [decide_eq_true h32]
    simp
  · rw [decide_eq_false (by omega : ¬ k < 2 * 16),
      testBit_ge x (k / 2) 16 hx (by omega)]
    simp

/-- C4: `interleave` is injective on pairs below `2^15`; `interleave (x, 0)`
is exactly the bit-spread of `x` (even positions only), and
`interleave (0, y)` has only odd bit positions set. -/
theorem morton_properties :
    (∀ x y x' y' : Nat, x < 32768 → y < 32768 → x' < 32768 → y' < 32768 →
      morton x y = morton x' y' → x = x' ∧ y = y') ∧
    (∀ x : Nat, x < 32768 →
      morton x 0 = spread x ∧
      ∀ k, (morton x 0).testBit (2 * k + 1) = false) ∧
    (∀ y : Nat, y < 32768 →
      ∀ k, (morton 0 y).testBit (2 * k) = false) := by
  refine ⟨?_, ?_, ?_⟩
  · intro x y x' y' hx hy hx' hy' h
    constructor
    · apply Nat.eq_of_testBit_eq
      intro k
      rw [← morton_testBit_even x y (by omega) k, h,
        morton_testBit_even x' y' (by omega) k]
    · apply Nat.eq_of_testBit_eq
      intro k
      rw [← morton_testBit_odd x y (by omega) k, h,
        morton_testBit_odd x' y' (by omega) k]
  · intro x hx
    constructor
    · apply Nat.eq_of_testBit_eq
      intro k
      rcases Nat.even_or_odd k with ⟨m, hm⟩ | ⟨m, hm⟩
      · subst hm
        rw [show m + m = 2 * m from by omega,
          morton_testBit_even x 0 (by omega) m, spread,
          spreadAux_testBit 16 x (2 * m),
          show 2 * m / 2 = m from by omega,
          decide_eq_true (by omega : 2 * m % 2 = 0)]
        by_cases h32 : 2 * m < 32
        · rw [decide_eq_true h32]
          simp
        · rw [decide_eq_false (by omega : ¬ 2 * m < 2 * 16),
            testBit_ge x m 16 (by omega) (by omega)]
          simp
      · subst hm
        rw [morton_testBit_odd x 0 (by omega) m, Nat.zero_testBit, spread,
          spreadAux_testBit 16 x (2 * m + 1),
          decide_eq_false (by omega : ¬ (2 * m + 1) % 2 = 0)]
        simp
    · intro k
      rw [morton_testBit_odd x 0 (by omega) k, Nat.zero_testBit]
  · intro y hy k
    rw [morton_testBit_even 0 y (by omega) k, Nat.zero_testBit]

/-- Witness for C4 at `(x, y) = (5, 3)` and `(x', y') = (5, 3)`:
`morton 5 3 = morton 5 3` forces the coordinates to agree, `morton 5 0`
equals the bit-spread of `5`, and bit 2 of `morton 0 3` is clear. -/
theorem morton_properties_witness :
    (5 = 5 ∧ 3 = 3) ∧ (morton 5 0 = spread 5) ∧
    (morton 0 3).testBit (2 * 1) = false :=
  ⟨morton_properties.1 5 3 5 3 (by decide) (by decide) (by decide) (by decide)
      rfl,
   (morton_properties.2.1 5 (by decide)).1,
   morton_properties.2.2 3 (by decide) 1⟩

/-! ## C1 — specification decompressor and refinement

`specDecompress` is transcribed from the specification's description of the
algorithm (§4.1 / claim C1): control words are consumed as an explicit
LSB-first bit queue refilled from the payload, a 1-bit copies a literal, a
0-bit decodes a little-endian 16-bit word into `length = low4 + bias` and
`base = high12`, and `length` bytes are copied from
`ring[(r - (base+1) + i) & 4095]` to the output and `ring[(r+i) & 4095]`.
The refinement theorem `uncompress_eq_specDecompress` proves the source
loop equal to it, with the effective bias `extra + 1`. -/

/-- The eight bits of a control byte, least significant first. -/
def byteBits (b : Nat) : List Bool :=
  [b.testBit 0, b.testBit 1, b.testBit 2, b.testBit 3,
   b.testBit 4, b.testBit 5, b.testBit 6, b.testBit 7]

/-- Spec-side match copy: byte `i` of the match is read from
`ring[(r - (base + 1) + i) & 4095]` and written to output and
`ring[(r + i) & 4095]`, for `i = 0 .. length - 1` in order. -/
def sCopy (r base : Nat) : (Nat → Nat) → Nat → Nat → ((Nat → Nat) × List Nat)
  | ring, _, 0 => (ring, [])
  | ring, i, n + 1 =>
    let c := ring (ringIdx ((r : Int) - ((base : Int) + 1) + (i : Int)))
    let rest := sCopy r base
      (fun k => if k = (r + i) % 4096 then c else ring k) (i + 1) n
    (rest.1, c :: rest.2)

/-- The specification loop: one control bit per iteration, from an explicit
LSB-first queue. -/
def sLoop (data : List Nat) (bias : Nat) :
    Nat → Nat → List Bool → Nat → (Nat → Nat) → List Nat → Option (List Nat)
  | 0, _, _, _, _, _ => none
  | fuel + 1, pos, bits, r, ring, out =>
    if pos < data.length then
      let bp := if bits.isEmpty then (byteBits (data.getD pos 0), pos + 1)
                else (bits, pos)
      let b := bp.1.headD false
      let rest := bp.1.tail
      let pos' := bp.2
      if b then
        if pos' < data.length then
          let c := data.getD pos' 0
          sLoop data bias fuel (pos' + 1) rest (r + 1) (ringSet ring r c)
            (out ++ [c])
        else none
      else
        if data.length ≤ pos' then some out
        else if pos' + 1 < data.length then
          let word := data.getD pos' 0 + 256 * data.getD (pos' + 1) 0
          let base := word / 16
          let len := word % 16 + bias
          let s := sCopy r base ring 0 len
          sLoop data bias fuel (pos' + 2) rest (r + len) s.1 (out ++ s.2)
        else none
    else some out

/-- The specification decompressor (bias applied as-is, no `+ 1`). -/
def specDecompress (data : List Nat) (bias : Nat) : Option (List Nat) :=
  sLoop data bias (data.length + 1) 0 [] 0 (fun _ => 0) []

/-- `&&&` distributes over `|||`. -/
theorem land_lor_distrib (a b c : Nat) :
    (a ||| b) &&& c = (a &&& c) ||| (b &&& c) := by
  apply Nat.eq_of_testBit_eq
  intro k
  simp only [Nat.testBit_land, Nat.testBit_lor]
  cases a.testBit k <;> cases b.testBit k <;> cases c.testBit k <;> rfl

/-- `>>>` distributes over `|||`. -/
theorem shiftRight_lor (a b n : Nat) :
    (a ||| b) >>> n = (a >>> n) ||| (b >>> n) := by
  apply Nat.eq_of_testBit_eq
  intro k
  simp only [Nat.testBit_shiftRight, Nat.testBit_lor]

/-- Assembling a little-endian 16-bit word: the source's
`(b1 << 8) | b0` equals `256 * b1 + b0` for bytes. -/
theorem le16_word (b0 b1 : Nat) (h0 : b0 < 256) :
    (b1 <<< 8) ||| b0 = 256 * b1 + b0 := by
  have hmod : ((b1 <<< 8) ||| b0) % 256 = b0 := by
    have h := Nat.and_pow_two_sub_one_eq_mod ((b1 <<< 8) ||| b0) 8
    norm_num at h
    rw [← h, land_lor_distrib]
    have h1 : (b1 <<< 8) &&& 255 = 0 := by
      have := Nat.and_pow_two_sub_one_eq_mod (b1 <<< 8) 8
      norm_num at this
      rw [this, Nat.shiftLeft_eq]
      norm_num [Nat.mul_mod_left]
    have h2 : b0 &&& 255 = b0 := by
      have := Nat.and_pow_two_sub_one_eq_mod b0 8
      norm_num at this
      rw [this, Nat.mod_eq_of_lt h0]
    rw [h1, h2]
    simp
  have hdiv : ((b1 <<< 8) ||| b0) / 256 = b1 := by
    have h := Nat.shiftRight_eq_div_pow ((b1 <<< 8) ||| b0) 8
    norm_num at h
    rw [← h, shiftRight_lor]
    have h1 : (b1 <<< 8) >>> 8 = b1 := by
      rw [Nat.shiftLeft_eq, Nat.shiftRight_eq_div_pow]
      norm_num
    have h2 : b0 >>> 8 = 0 := by
      rw [Nat.shiftRight_eq_div_pow]
      exact Nat.div_eq_of_lt (by omega)
    rw [h1, h2]
    simp
  omega

/-- The source's field extraction `(word >> 4) & 0xfff` is the high 12 bits,
i.e. division by 16, for 16-bit words. -/
theorem word_base (word : Nat) (h : word < 65536) :
    (word >>> 4) &&& 0xfff = word / 16 := by
  have h1 := Nat.and_pow_two_sub_one_eq_mod (word >>> 4) 12
  have h2 := Nat.shiftRight_eq_div_pow word 4
  norm_num at h1 h2
  rw [h2] at h1
  rw [h2, h1]
  exact Nat.mod_eq_of_lt (by omega)

/-- The source's `word & 0xf` is the low 4 bits, i.e. remainder mod 16. -/
theorem word_len (word : Nat) : word &&& 0xf = word % 16 := by
  have h := Nat.and_pow_two_sub_one_eq_mod word 4
  norm_num at h
  rw [h]

/-- The source's copy loop (running cursor and offset) computes the
specification's indexed copy: byte `i` comes from
`ring[(r - (base+1) + i) & 4095]` and lands at `ring[(r+i) & 4095]`, with
`r` advanced by the match length. -/
theorem copyMatch_eq_sCopy (r base : Nat) :
    ∀ n ring i,
      copyMatch ring (r + i) ((r : Int) - ((base : Int) + 1) + (i : Nat)) n =
        ((sCopy r base ring i n).1, r + i + n, (sCopy r base ring i n).2) := by
  intro n
  induction n with
  | zero => intro ring i; rfl
  | succ n ih =>
    intro ring i
    rw [copyMatch, sCopy]
    have hoff : ((r : Int) - ((base : Int) + 1) + (i : Nat)) + 1 =
        (r : Int) - ((base : Int) + 1) + ((i + 1 : Nat) : Int) := by
      push_cast
      ring
    have hr : r + i + 1 = r + (i + 1) := by omega
    have := ih (fun k => if k = (r + i) % 4096 then
        ring (ringIdx ((r : Int) - ((base : Int) + 1) + (i : Nat))) else ring k)
      (i + 1)
    rw [hoff, hr]
    show (_, _, _) = _
    rw [show ringSet ring (r + i)
          (ring (ringIdx ((r : Int) - ((base : Int) + 1) + (i : Nat)))) =
        (fun k => if k = (r + i) % 4096 then
          ring (ringIdx ((r : Int) - ((base : Int) + 1) + (i : Nat)))
         else ring k) from rfl, this]
    refine Prod.ext rfl (Prod.ext ?_ rfl)
    show r + (i + 1) + n = r + i + (n + 1)
    omega

/-- `n &&& 256 = 0` means bit 8 is clear. -/
theorem and256_eq_zero_iff (n : Nat) :
    n &&& 256 = 0 ↔ n.testBit 8 = false := by
  rw [show (256 : Nat) = 2 ^ 8 from rfl, Nat.and_two_pow]
  cases h : n.testBit 8 <;> simp

/-- `n &&& 1` tests bit 0. -/
theorem and1_eq (n : Nat) : n &&& 1 = if n.testBit 0 then 1 else 0 := by
  rw [Nat.and_one_is_mod, Nat.testBit_zero]
  rcases Nat.mod_two_eq_zero_or_one n with h | h <;> simp [h]

/-- The sentinel bit of a residual control word: after consuming `k < 8` of
its bits, bit 8 is still set; after all eight, it is clear. -/
theorem ctl_sentinel (b : Nat) (hb : b < 256) (k : Nat) (hk : k ≤ 8) :
    ((0xff00 ||| b) >>> k).testBit 8 = decide (k < 8) := by
  rw [Nat.testBit_shiftRight, Nat.testBit_lor,
    testBit_ge b (k + 8) 8 hb (by omega), Bool.or_false]
  interval_cases k <;> decide

/-- Bit 0 of a residual control word is bit `k` of the refilled byte. -/
theorem ctl_bit0 (b : Nat) (k : Nat) (hk : k < 8) :
    ((0xff00 ||| b) >>> k).testBit 0 = b.testBit k := by
  rw [Nat.testBit_shiftRight, Nat.testBit_lor, Nat.add_zero]
  have h : (0xff00 : Nat).testBit k = false := by
    interval_cases k <;> decide
  rw [h, Bool.false_or]

/-- The residual bit queue after `k < 8` consumed bits, as head and tail. -/
theorem byteBits_drop (b : Nat) (k : Nat) (hk : k < 8) :
    (byteBits b).drop k = b.testBit k :: (byteBits b).drop (k + 1) := by
  interval_cases k <;> rfl

/-- The residual bit queue is empty exactly when all eight bits are
consumed. -/
theorem byteBits_isEmpty (b : Nat) (k : Nat) (hk : k ≤ 8) :
    ((byteBits b).drop k).isEmpty = decide (k = 8) := by
  interval_cases k <;> rfl

/-- Payload bytes are below 256. -/
theorem byteLt (data : List Nat) (hdata : ∀ c ∈ data, c < 256) (pos : Nat)
    (hpos : pos < data.length) : data.getD pos 0 < 256 := by
  apply hdata
  rw [List.getD_eq_getElem data 0 hpos]
  exact List.getElem_mem hpos

/-- Relation between the source's sentinel-tracked control word and the
specification's explicit LSB-first bit queue. -/
def CtlInv (ctl : Nat) (bits : List Bool) : Prop :=
  (ctl = 0 ∧ bits = []) ∨
  ∃ b, b < 256 ∧ ∃ k, k ≤ 8 ∧ ctl = (0xff00 ||| b) >>> k ∧
    bits = (byteBits b).drop k

/-- After the (possible) control-word refill, both decompressors agree on a
residual byte `b`, a consumed-bit count `k < 8` and a payload position. -/
theorem refill_align (data : List Nat) (hdata : ∀ c ∈ data, c < 256)
    (pos : Nat) (hpos : pos < data.length) (ctl : Nat) (bits : List Bool)
    (hinv : CtlInv ctl bits) :
    ∃ b k pos₁, b < 256 ∧ k < 8 ∧
      (if ctl &&& 256 = 0 then ((data.getD pos 0) ||| 0xff00, pos + 1)
       else (ctl, pos)) = ((0xff00 ||| b) >>> k, pos₁) ∧
      (if bits.isEmpty then (byteBits (data.getD pos 0), pos + 1)
       else (bits, pos)) = ((byteBits b).drop k, pos₁) := by
  have hbnew : data.getD pos 0 < 256 := byteLt data hdata pos hpos
  rcases hinv with ⟨hc, hb⟩ | ⟨b, hb256, k, hk8, hc, hb⟩
  · subst hc
    subst hb
    refine ⟨data.getD pos 0, 0, pos + 1, hbnew, by omega, ?_, ?_⟩
    · rw [if_pos (by decide), Nat.shiftRight_zero, Nat.lor_comm]
    · rw [if_pos (by decide : ([] : List Bool).isEmpty = true)]
      rfl
  · subst hc
    subst hb
    rcases Nat.lt_or_ge k 8 with hk | hk
    · refine ⟨b, k, pos, hb256, hk, ?_, ?_⟩
      · rw [if_neg]
        intro h0
        rw [and256_eq_zero_iff, ctl_sentinel b hb256 k hk8,
          decide_eq_true hk] at h0
        exact absurd h0 (by simp)
      · rw [if_neg]
        rw [byteBits_isEmpty b k hk8, decide_eq_false (by omega : ¬ k = 8)]
        simp
    · have hk8' : k = 8 := by omega
      subst hk8'
      refine ⟨data.getD pos 0, 0, pos + 1, hbnew, by omega, ?_, ?_⟩
      · rw [if_pos, Nat.shiftRight_zero, Nat.lor_comm]
        rw [and256_eq_zero_iff, ctl_sentinel b hb256 8 (by omega)]
        decide
      · rw [if_pos]
        · rfl
        · rw [byteBits_isEmpty b 8 (by omega)]
          decide

/-- The source loop and the specification loop agree step by step (same
fuel), given the control-word relation. -/
theorem uLoop_eq_sLoop (data : List Nat) (e : Nat)
    (hdata : ∀ c ∈ data, c < 256) :
    ∀ fuel pos ctl bits r ring out, CtlInv ctl bits →
      uLoop data e fuel pos ctl r ring out =
        sLoop data e fuel pos bits r ring out := by
  intro fuel
  induction fuel with
  | zero => intro pos ctl bits r ring out _; rfl
  | succ fuel ih =>
    intro pos ctl bits r ring out hinv
    by_cases hpos : pos < data.length
    · obtain ⟨b, k, pos₁, hb, hk, himpl, hspec⟩ :=
        refill_align data hdata pos hpos ctl bits hinv
      simp only [uLoop, sLoop, if_pos hpos, himpl, hspec]
      rw [and1_eq, ctl_bit0 b k hk, byteBits_drop b k hk]
      simp only [List.headD_cons, List.tail_cons]
      have hshift : ((0xff00 ||| b) >>> k) >>> 1 = (0xff00 ||| b) >>> (k + 1) :=
        (Nat.shiftRight_add _ k 1).symm
      have hinv' : CtlInv ((0xff00 ||| b) >>> (k + 1))
          ((byteBits b).drop (k + 1)) :=
        Or.inr ⟨b, hb, k + 1, by omega, rfl, rfl⟩
      cases hbt : b.testBit k
      · simp only [Bool.false_eq_true, if_false]
        rw [if_neg (by omega : ¬ (0 : Nat) = 1)]
        by_cases hle : data.length ≤ pos₁
        · rw [if_pos hle, if_pos hle]
        · rw [if_neg hle, if_neg hle]
          by_cases h2 : pos₁ + 1 < data.length
          · rw [if_pos h2, if_pos h2]
            have hb0 : data.getD pos₁ 0 < 256 := byteLt data hdata pos₁ (by omega)
            have hb1 : data.getD (pos₁ + 1) 0 < 256 := byteLt data hdata _ h2
            have hword : (data.getD (pos₁ + 1) 0 <<< 8) ||| data.getD pos₁ 0 =
                data.getD pos₁ 0 + 256 * data.getD (pos₁ + 1) 0 := by
              rw [le16_word _ _ hb0]
              omega
            rw [hword,
              word_base (data.getD pos₁ 0 + 256 * data.getD (pos₁ + 1) 0)
                (by omega),
              word_len]
            have hB := copyMatch_eq_sCopy r
              ((data.getD pos₁ 0 + 256 * data.getD (pos₁ + 1) 0) / 16)
              ((data.getD pos₁ 0 + 256 * data.getD (pos₁ + 1) 0) % 16 + e)
              ring 0
            have hoff0 : ((r : Int) -
                ((((data.getD pos₁ 0 + 256 * data.getD (pos₁ + 1) 0) / 16 :
                  Nat) : Int) + 1) + ((0 : Nat) : Int)) =
                (r : Int) -
                ((((data.getD pos₁ 0 + 256 * data.getD (pos₁ + 1) 0) / 16 :
                  Nat) : Int) + 1) := by
              push_cast
              ring
            rw [hoff0, Nat.add_zero] at hB
            rw [hB]
            rw [hshift]
            exact ih _ _ _ _ _ _ hinv'
          · rw [if_neg h2, if_neg h2]
      · simp only [if_true]
        by_cases hlt : pos₁ < data.length
        · rw [if_pos hlt, if_pos hlt, hshift]
          exact ih _ _ _ _ _ _ hinv'
        · rw [if_neg hlt, if_neg hlt]
    · simp only [uLoop, sLoop, if_neg hpos]

/-- C1: the source decompressor (for both call sites: mode 1 `LzssAlt`,
mode 2 `Lzss`) is the single specification algorithm — LSB-first control
bits, literals, and little-endian matches with `length = low4 + bias`,
`base = high12`, reading `ring[(r - (base+1) + i) & 4095]` and writing
`ring[(r+i) & 4095]` — differing only in the bias parameter (`extra + 1`,
i.e. 2 for `LzssAlt` and 3 for `Lzss`). -/
theorem uncompress_eq_specDecompress (data : List Nat)
    (hdata : ∀ c ∈ data, c < 256) :
    (∀ extra, uncompress data extra = specDecompress data (extra + 1)) ∧
    uncompress data 1 = specDecompress data 2 ∧
    uncompress data 2 = specDecompress data 3 := by
  have h : ∀ extra, uncompress data extra = specDecompress data (extra + 1) := by
    intro extra
    rw [uncompress, specDecompress]
    exact uLoop_eq_sLoop data (extra + 1) hdata (data.length + 1) 0 0 [] 0
      (fun _ => 0) [] (Or.inl ⟨rfl, rfl⟩)
  exact ⟨h, h 1, h 2⟩

/-- Witness for C1 on a concrete byte payload (a literal, then a match). -/
theorem uncompress_eq_specDecompress_witness :
    uncompress [3, 65, 66, 0, 0] 1 = specDecompress [3, 65, 66, 0, 0] 2 ∧
    uncompress [3, 65, 66, 0, 0] 2 = specDecompress [3, 65, 66, 0, 0] 3 :=
  ⟨(uncompress_eq_specDecompress [3, 65, 66, 0, 0] (by decide)).2.1,
   (uncompress_eq_specDecompress [3, 65, 66, 0, 0] (by decide)).2.2⟩

/-! ## C9 — termination and truncation behaviour -/

/-- The result of the loop does not depend on the fuel, once the fuel
exceeds the remaining payload: each iteration advances `pos`, so the loop
terminates on every payload. -/
theorem uLoop_fuel_irrelevant (data : List Nat) (e : Nat) :
    ∀ f₁ f₂ pos ctl r ring out, 1 ≤ f₁ → 1 ≤ f₂ →
      data.length < f₁ + pos → data.length < f₂ + pos →
      uLoop data e f₁ pos ctl r ring out = uLoop data e f₂ pos ctl r ring out := by
  intro f₁
  induction f₁ with
  | zero =>
    intro f₂ pos ctl r ring out h1 _ _ _
    omega
  | succ g ih =>
    intro f₂ pos ctl r ring out _ hf2 hl1 hl2
    cases f₂ with
    | zero => omega
    | succ g₂ =>
      simp only [uLoop]
      by_cases hpos : pos < data.length
      · rw [if_pos hpos, if_pos hpos]
        obtain ⟨ctl', pos', heq, hge, hle⟩ : ∃ ctl' pos',
            (if ctl &&& 256 = 0 then ((data.getD pos 0) ||| 0xff00, pos + 1)
             else (ctl, pos)) = (ctl', pos') ∧ pos ≤ pos' ∧ pos' ≤ pos + 1 := by
          by_cases hc : ctl &&& 256 = 0
          · exact ⟨_, _, if_pos hc, by omega, by omega⟩
          · exact ⟨_, _, if_neg hc, by omega, by omega⟩
        rw [heq]
        simp only
        by_cases hbit : ctl' &&& 1 = 1
        · rw [if_pos hbit, if_pos hbit]
          by_cases hlit : pos' < data.length
          · rw [if_pos hlit, if_pos hlit]
            exact ih g₂ (pos' + 1) _ _ _ _ (by omega) (by omega) (by omega)
              (by omega)
          · rw [if_neg hlit, if_neg hlit]
        · rw [if_neg hbit, if_neg hbit]
          by_cases hend : data.length ≤ pos'
          · rw [if_pos hend, if_pos hend]
          · rw [if_neg hend, if_neg hend]
            by_cases h2 : pos' + 1 < data.length
            · rw [if_pos h2, if_pos h2]
              exact ih g₂ (pos' + 2) _ _ _ _ (by omega) (by omega) (by omega)
                (by omega)
            · rw [if_neg h2, if_neg h2]
      · rw [if_neg hpos, if_neg hpos]

/-- Low bit of a control word just refilled from byte `b`. -/
theorem refill_and1 (b : Nat) : (b ||| 0xff00) &&& 1 = b &&& 1 := by
  rw [land_lor_distrib, show (0xff00 : Nat) &&& 1 = 0 from by decide]
  simp

/-- C9 (amended): decompression terminates on every payload (the result is
fuel-independent past the payload length); the loop returns normally when
the cursor reaches the end at the loop guard, or when the payload ends
right after a control byte whose next bit starts a back-reference; but it
reads out of bounds (raises) when the byte of a pending literal, or the
second byte of a match word, lies past the end. -/
theorem uncompress_termination :
    (∀ (data : List Nat) extra fuel, data.length < fuel →
      uLoop data (extra + 1) fuel 0 0 0 (fun _ => 0) [] =
        uncompress data extra) ∧
    (∀ (data : List Nat) e fuel pos ctl r ring out, data.length ≤ pos →
      uLoop data e (fuel + 1) pos ctl r ring out = some out) ∧
    (∀ (data : List Nat) e fuel pos ctl r ring out,
      pos + 1 = data.length → ctl &&& 256 = 0 → data.getD pos 0 &&& 1 = 0 →
      uLoop data e (fuel + 1) pos ctl r ring out = some out) ∧
    (∀ (data : List Nat) e fuel pos ctl r ring out,
      pos + 1 = data.length → ctl &&& 256 = 0 → data.getD pos 0 &&& 1 = 1 →
      uLoop data e (fuel + 1) pos ctl r ring out = none) ∧
    (∀ (data : List Nat) e fuel pos ctl r ring out,
      pos + 2 = data.length → ctl &&& 256 = 0 → data.getD pos 0 &&& 1 = 0 →
      uLoop data e (fuel + 1) pos ctl r ring out = none) := by
  refine ⟨?_, ?_, ?_, ?_, ?_⟩
  · intro data extra fuel hf
    rw [uncompress]
    exact uLoop_fuel_irrelevant data (extra + 1) fuel (data.length + 1) 0 _ _ _ _
      (by omega) (by omega) (by omega) (by omega)
  · intro data e fuel pos ctl r ring out hend
    simp only [uLoop]
    rw [if_neg (by omega)]
  · intro data e fuel pos ctl r ring out hpos hc hb
    simp only [uLoop]
    rw [if_pos (by omega), if_pos hc]
    simp only
    rw [if_neg (by rw [refill_and1, hb]; omega), if_pos (by omega)]
  · intro data e fuel pos ctl r ring out hpos hc hb
    simp only [uLoop]
    rw [if_pos (by omega), if_pos hc]
    simp only
    rw [if_pos (by rw [refill_and1, hb]), if_neg (by omega)]
  · intro data e fuel pos ctl r ring out hpos hc hb
    simp only [uLoop]
    rw [if_pos (by omega), if_pos hc]
    simp only
    rw [if_neg (by rw [refill_and1, hb]; omega), if_neg (by omega),
      if_neg (by omega)]

/-- Witness for C9 (amended) at concrete payloads: `[5]` terminates with the
same result for any larger fuel; `[]` returns at the guard; `[2]` (control
byte with low bit 0) terminates cleanly; `[1]` (literal bit with no byte)
and `[0, 7]` (match with only one byte) raise. -/
theorem uncompress_termination_witness :
    uLoop [5] 2 7 0 0 0 (fun _ => 0) [] = uncompress [5] 1 ∧
    uLoop ([] : List Nat) 2 1 0 0 0 (fun _ => 0) [] = some [] ∧
    uLoop [2] 2 1 0 0 0 (fun _ => 0) [] = some [] ∧
    uLoop [1] 2 1 0 0 0 (fun _ => 0) [] = none ∧
    uLoop [0, 7] 2 1 0 0 0 (fun _ => 0) [] = none :=
  ⟨uncompress_termination.1 [5] 1 7 (by decide),
   uncompress_termination.2.1 [] 2 0 0 0 0 _ [] (by decide),
   uncompress_termination.2.2.1 [2] 2 0 0 0 0 _ [] (by decide) (by decide)
     (by decide),
   uncompress_termination.2.2.2.1 [1] 2 0 0 0 0 _ [] (by decide) (by decide)
     (by decide),
   uncompress_termination.2.2.2.2 [0, 7] 2 0 0 0 0 _ [] (by decide) (by decide)
     (by decide)⟩

/-! ## C10 — ring-buffer access safety -/

/-- `getD` after `set`. -/
theorem getD_set (l : List Nat) (i k c : Nat) :
    (l.set i c).getD k 0 =
      if i = k ∧ i < l.length then c else l.getD k 0 := by
  rw [List.getD, List.getD, List.get?_eq_getElem?, List.get?_eq_getElem?,
    List.getElem?_set]
  split
  · rename_i h
    subst h
    split
    · rename_i h2
      simp [h2]
    · rename_i h2
      rw [if_neg (by omega)]
      rw [List.getElem?_eq_none (by omega)]
  · rename_i h
    rw [if_neg (by tauto)]

/-- Every masked ring index is inside the 4096-byte ring. -/
theorem ringIdx_lt (z : Int) : ringIdx z < 4096 := by
  rw [ringIdx]
  have h1 : 0 ≤ z % 4096 := Int.emod_nonneg z (by omega)
  have h2 : z % 4096 < 4096 := Int.emod_lt_of_pos z (by omega)
  omega

/-- Checked variant of the match-copy loop over an explicit 4096-byte list:
a read or write outside the list is an error (`none`). -/
def copyMatchC : List Nat → Nat → Int → Nat → Option (List Nat × Nat × List Nat)
  | ring, r, _, 0 => some (ring, r, [])
  | ring, r, off, n + 1 =>
    match ring.get? (ringIdx off) with
    | none => none
    | some c =>
      if r % 4096 < ring.length then
        match copyMatchC (ring.set (r % 4096) c) (r + 1) (off + 1) n with
        | none => none
        | some rest => some (rest.1, rest.2.1, c :: rest.2.2)
      else none

/-- Checked variant of the decompression loop: the outer `none` means a ring
access was out of bounds, `some none` means the payload read raised, and
`some (some out)` is a normal return. -/
def uLoopC (data : List Nat) (extra : Nat) :
    Nat → Nat → Nat → Nat → List Nat → List Nat → Option (Option (List Nat))
  | 0, _, _, _, _, _ => some none
  | fuel + 1, pos, ctl, r, ring, out =>
    if pos < data.length then
      let ctlPos := if ctl &&& 256 = 0 then ((data.getD pos 0) ||| 0xff00, pos + 1)
                    else (ctl, pos)
      let ctl' := ctlPos.1
      let pos' := ctlPos.2
      if ctl' &&& 1 = 1 then
        if pos' < data.length then
          let c := data.getD pos' 0
          if r % 4096 < ring.length then
            uLoopC data extra fuel (pos' + 1) (ctl' >>> 1) (r + 1)
              (ring.set (r % 4096) c) (out ++ [c])
          else none
        else some none
      else
        if data.length ≤ pos' then some (some out)
        else if pos' + 1 < data.length then
          let b0 := data.getD pos' 0
          let b1 := data.getD (pos' + 1) 0
          let word := (b1 <<< 8) ||| b0
          let base := (word >>> 4) &&& 0xfff
          let len := (word &&& 0xf) + extra
          match copyMatchC ring r ((r : Int) - ((base : Int) + 1)) len with
          | none => none
          | some s => uLoopC data extra fuel (pos' + 2) (ctl' >>> 1) s.2.1 s.1
              (out ++ s.2.2)
        else some none
    else some (some out)

/-- Checked decompression over a freshly zero-filled 4096-byte ring list. -/
def uncompressChecked (data : List Nat) (extra : Nat) :
    Option (Option (List Nat)) :=
  uLoopC data (extra + 1) (data.length + 1) 0 0 0 (List.replicate 4096 0) []

/-- Relation between the checked ring list and the unchecked ring function. -/
def RelR (ringC : List Nat) (ringF : Nat → Nat) : Prop :=
  ringC.length = 4096 ∧ ∀ k, k < 4096 → ringC.getD k 0 = ringF k

/-- The checked copy loop never hits a ring error and computes the
unchecked copy. -/
theorem copyMatchC_eq :
    ∀ n ringC ringF r off, RelR ringC ringF →
      ∃ ringC', copyMatchC ringC r off n =
          some (ringC', (copyMatch ringF r off n).2.1,
                (copyMatch ringF r off n).2.2) ∧
        RelR ringC' (copyMatch ringF r off n).1 := by
  intro n
  induction n with
  | zero =>
    intro ringC ringF r off hrel
    exact ⟨ringC, rfl, hrel⟩
  | succ n ih =>
    intro ringC ringF r off hrel
    obtain ⟨hlen, hget⟩ := hrel
    have hidx : ringIdx off < ringC.length := by rw [hlen]; exact ringIdx_lt off
    have hread : ringC.get? (ringIdx off) = some (ringF (ringIdx off)) := by
      rw [List.get?_eq_getElem?, List.getElem?_eq_getElem hidx]
      rw [← hget (ringIdx off) (by omega)]
      rw [List.getD, List.get?_eq_getElem?, List.getElem?_eq_getElem hidx]
      rfl
    have hrel' : RelR (ringC.set (r % 4096) (ringF (ringIdx off)))
        (ringSet ringF r (ringF (ringIdx off))) := by
      refine ⟨by rw [List.length_set, hlen], ?_⟩
      intro k hk
      rw [getD_set, ringSet]
      by_cases hk2 : r % 4096 = k
      · rw [if_pos ⟨hk2, by omega⟩, if_pos hk2.symm]
      · rw [if_neg (by tauto), if_neg (fun h => hk2 h.symm), hget k hk]
    obtain ⟨ringC', hC, hrelC⟩ := ih (ringC.set (r % 4096) (ringF (ringIdx off)))
      (ringSet ringF r (ringF (ringIdx off))) (r + 1) (off + 1) hrel'
    refine ⟨ringC', ?_, ?_⟩
    · rw [copyMatchC, hread]
      simp only []
      rw [if_pos (show r % 4096 < ringC.length from by rw [hlen]; omega), hC]
      simp only [copyMatch]
    · rw [copyMatch]
      exact hrelC

/-- The checked loop never hits a ring error: it computes exactly the
unchecked loop's result. -/
theorem uLoopC_eq (data : List Nat) (e : Nat) :
    ∀ fuel pos ctl r out ringC ringF, RelR ringC ringF →
      uLoopC data e fuel pos ctl r ringC out =
        some (uLoop data e fuel pos ctl r ringF out) := by
  intro fuel
  induction fuel with
  | zero => intro pos ctl r out ringC ringF _; rfl
  | succ fuel ih =>
    intro pos ctl r out ringC ringF hrel
    simp only [uLoopC, uLoop]
    by_cases hpos : pos < data.length
    · rw [if_pos hpos, if_pos hpos]
      obtain ⟨ctl', pos', heq, _, _⟩ : ∃ ctl' pos',
          (if ctl &&& 256 = 0 then ((data.getD pos 0) ||| 0xff00, pos + 1)
           else (ctl, pos)) = (ctl', pos') ∧ pos ≤ pos' ∧ pos' ≤ pos + 1 := by
        by_cases hc : ctl &&& 256 = 0
        · exact ⟨_, _, if_pos hc, by omega, by omega⟩
        · exact ⟨_, _, if_neg hc, by omega, by omega⟩
      rw [heq]
      simp only
      by_cases hbit : ctl' &&& 1 = 1
      · rw [if_pos hbit, if_pos hbit]
        by_cases hlit : pos' < data.length
        · rw [if_pos hlit, if_pos hlit,
            if_pos (show r % 4096 < ringC.length from by rw [hrel.1]; omega)]
          apply ih
          refine ⟨by rw [List.length_set, hrel.1], ?_⟩
          intro k hk
          rw [getD_set, ringSet]
          by_cases hk2 : r % 4096 = k
          · rw [if_pos ⟨hk2, by rw [hrel.1]; omega⟩, if_pos hk2.symm]
          · rw [if_neg (by tauto), if_neg (fun h => hk2 h.symm), hrel.2 k hk]
        · rw [if_neg hlit, if_neg hlit]
      · rw [if_neg hbit, if_neg hbit]
        by_cases hend : data.length ≤ pos'
        · rw [if_pos hend, if_pos hend]
        · rw [if_neg hend, if_neg hend]
          by_cases h2 : pos' + 1 < data.length
          · rw [if_pos h2, if_pos h2]
            obtain ⟨ringC', hC, hrelC⟩ := copyMatchC_eq
              (((((data.getD (pos' + 1) 0) <<< 8) ||| data.getD pos' 0) &&& 0xf)
                + e) ringC ringF r
              ((r : Int) -
                (((((((data.getD (pos' + 1) 0) <<< 8) ||| data.getD pos' 0)
                  >>> 4) &&& 0xfff : Nat) : Int) + 1)) hrel
            rw [hC]
            simp only []
            exact ih _ _ _ _ _ _ hrelC
          · rw [if_neg h2, if_neg h2]
    · rw [if_neg hpos, if_neg hpos]

/-- Every ring access of `uncompress` is in bounds, for every payload and
bias: the checked decompressor never reports a ring error. -/
theorem uncompressChecked_eq (data : List Nat) (extra : Nat) :
    uncompressChecked data extra = some (uncompress data extra) := by
  rw [uncompressChecked, uncompress]
  apply uLoopC_eq
  refine ⟨by rw [List.length_replicate], ?_⟩
  intro k hk
  rw [List.getD, List.get?_eq_getElem?, List.getElem?_replicate]
  split <;> rfl

/-- Bytes of a back-reference that reach farther back than anything written
so far read zeroes from the untouched part of the ring: writes happen at
`r, r+1, ...` while such reads wrap to indices at or above `r + i`. -/
theorem copyMatch_zero_read (base : Nat) (hbase : base + 1 ≤ 4096) :
    ∀ n r ring, r < 4096 → (∀ k, r ≤ k → k < 4096 → ring k = 0) →
      ∀ i, i < n → r + i < base + 1 →
        ((copyMatch ring r ((r : Int) - ((base : Int) + 1)) n).2.2).getD i 0
          = 0 := by
  intro n
  induction n with
  | zero => intro r ring _ _ i hi _; omega
  | succ n ih =>
    intro r ring hr hzero i hi hreach
    have hneg : ((r : Int) - ((base : Int) + 1)) % 4096 =
        (r : Int) - ((base : Int) + 1) + 4096 := by omega
    have hidx : ringIdx ((r : Int) - ((base : Int) + 1)) =
        4096 + r - (base + 1) := by
      rw [ringIdx, hneg]
      omega
    have hc : ring (ringIdx ((r : Int) - ((base : Int) + 1))) = 0 := by
      rw [hidx]
      exact hzero _ (by omega) (by omega)
    rw [copyMatch]
    simp only []
    cases i with
    | zero =>
      rw [hc]
      rfl
    | succ i =>
      rw [List.getD_cons_succ]
      have hoff : ((r : Int) - ((base : Int) + 1)) + 1 =
          ((r + 1 : Nat) : Int) - ((base : Int) + 1) := by
        push_cast
        ring
      rw [hoff]
      apply ih (r + 1)
      · omega
      · intro k hk1 hk2
        rw [ringSet]
        rw [if_neg (by omega : ¬ k = r % 4096)]
        exact hzero k (by omega) hk2
      · omega
      · omega

/-- C10: every ring access in `uncompress` is in bounds for every payload
and bias — masked indices are below 4096, the bounds-checked decompressor
computes exactly the unchecked one — and a back-reference reaching farther
back than the bytes written so far reads zeroes from the freshly
zero-filled ring. -/
theorem ring_access_safety :
    (∀ z : Int, ringIdx z < 4096) ∧
    (∀ (data : List Nat) extra,
      uncompressChecked data extra = some (uncompress data extra)) ∧
    (∀ (base n r : Nat) (ring : Nat → Nat), base + 1 ≤ 4096 → r < 4096 →
      (∀ k, r ≤ k → k < 4096 → ring k = 0) →
      ∀ i, i < n → r + i < base + 1 →
        ((copyMatch ring r ((r : Int) - ((base : Int) + 1)) n).2.2).getD i 0
          = 0) :=
  ⟨ringIdx_lt, uncompressChecked_eq,
   fun base n r ring hb hr hz => copyMatch_zero_read base hb n r ring hr hz⟩

/-- Witness for C10: the masked index of offset `-1` is 4095; checked and
unchecked decompression agree on a payload with a match command; and the
second byte of a match that reaches 11 slots behind the start reads 0. -/
theorem ring_access_safety_witness :
    ringIdx (-1) < 4096 ∧
    uncompressChecked [0, 160, 0] 1 = some (uncompress [0, 160, 0] 1) ∧
    ((copyMatch (fun _ => 0) 0 ((0 : Int) - ((10 : Int) + 1)) 3).2.2).getD 1 0
      = 0 :=
  ⟨ring_access_safety.1 (-1),
   ring_access_safety.2.1 [0, 160, 0] 1,
   ring_access_safety.2.2 10 3 0 (fun _ => 0) (by omega) (by omega)
     (fun _ _ _ => rfl) 1 (by omega) (by omega)⟩
